import Mathlib

/-!
# Merkle tree engine of `reactivejson/merkleTree`

A shallow embedding of `internal/merkle/merkleTree.go`, `internal/merkle/merkleProof.go`,
the `HashType` interface of `internal/merkle/hash/hash.go` and the hash provider of
`.idea/blake2b.go`, followed by theorems about tree construction, proof generation, proof
verification, leaf update and the hash provider.

Modelling conventions.

* A Go `[]byte` is a `List (Fin 256)`; a `nil` slice and an empty slice are both `[]`
  (`bytes.Equal` does not tell them apart either).
* A Go `[][]byte` is a `List Bytes`; an element that was never written is `nil`, that is `[]`.
* Reading or writing a slice out of range panics in Go: `getAt` and `setAt` return
  `GoErr.panic` there, and every function that indexes a slice is fallible.
* Go `int` and `uint64` values that are bounded by a slice length are natural numbers; the
  `uint64` arithmetic of `proofHash`, whose operands come from the caller, is reduced
  modulo `2 ^ 64`.
* Loops whose trip count is not a fixed range (`i /= 2` walks) take a fuel argument and
  return `GoErr.outOfFuel` when it is exhausted; callers pass the start position as fuel,
  which is always enough.
* `GenerateMProofTraced` and `UpdateLeafTraced` are `GenerateMProof` and `UpdateLeaf` with
  a record of the slice positions they access; erasing the record gives the plain method.
-/

namespace Merkle

/-- Byte slices. -/
abbrev Bytes := List (Fin 256)

/-- What a Go call can end with besides a result: a returned `error` value, a run-time
panic, or (in the model only) an exhausted loop budget. -/
inductive GoErr where
  | error (msg : String)
  | panic (msg : String)
  | outOfFuel
  deriving DecidableEq, Repr

/-- The interface `hash.HashType`: a variadic `Hash` and the digest length `HashLength`
(an `int` in Go; it is a length and is taken as a natural number). -/
structure HashType where
  Hash : List Bytes → Bytes
  HashLength : Nat

/-- The struct `MerkleTree`. -/
structure MerkleTree where
  hash : HashType
  data : List Bytes
  nodes : List Bytes

/-- The struct `MerkleProof`. -/
structure MerkleProof where
  Hashes : List Bytes
  Index : Nat

/-- The read `xs[i]`. -/
def getAt (xs : List Bytes) (i : Nat) : Except GoErr Bytes :=
  match xs[i]? with
  | some x => .ok x
  | none => .error (.panic "index out of range")

/-- The write `xs[i] = v`. -/
def setAt (xs : List Bytes) (i : Nat) (v : Bytes) : Except GoErr (List Bytes) :=
  if i < xs.length then .ok (xs.set i v) else .error (.panic "index out of range")

/-- Search loop of `ceilLog2`: the first `k` from the given one on with `n ≤ 2 ^ k`. -/
def ceilLog2Go (n : Nat) : Nat → Nat → Nat
  | 0, k => k
  | fuel + 1, k => if n ≤ 2 ^ k then k else ceilLog2Go n fuel (k + 1)

/-- The integer `math.Ceil(math.Log2(float64(n)))` for `n ≥ 1`: the least `k` with
`n ≤ 2 ^ k`. The floating-point expression has this value for every length a Go slice
can have in memory. -/
def ceilLog2 (n : Nat) : Nat := ceilLog2Go n n 0

/-- The value `int(math.Exp2(math.Ceil(math.Log2(float64(n)))))` of `NewTree`. -/
def branchesLen (n : Nat) : Nat := 2 ^ ceilLog2 n

/-- The function `createLeaves(data, dest, hash)` where `dest` is the window of `nodes`
that starts at `off`: `dest[i] = hash.Hash(data[i])` for `i` over `range data`. -/
def createLeaves (hash : HashType) : List Bytes → Nat → List Bytes → Except GoErr (List Bytes)
  | [], _, nodes => .ok nodes
  | d :: ds, off, nodes => do
      let nodes1 ← setAt nodes off (hash.Hash [d])
      createLeaves hash ds (off + 1) nodes1

/-- The padding loop of `NewTree`: `count` writes of a zero digest from position `i` on. -/
def padLoop (zero : Bytes) : Nat → Nat → List Bytes → Except GoErr (List Bytes)
  | 0, _, nodes => .ok nodes
  | count + 1, i, nodes => do
      let nodes1 ← setAt nodes i zero
      padLoop zero count (i + 1) nodes1

/-- The loop of `createNonLeaves` from position `i` down to `1`. -/
def createNonLeavesFrom (hash : HashType) : Nat → List Bytes → Except GoErr (List Bytes)
  | 0, nodes => .ok nodes
  | i + 1, nodes => do
      let left ← getAt nodes ((i + 1) * 2)
      let right ← getAt nodes ((i + 1) * 2 + 1)
      let nodes1 ← setAt nodes (i + 1) (hash.Hash [left, right])
      createNonLeavesFrom hash i nodes1

/-- The function `createNonLeaves(nodes, hash, leafOffset)`. -/
def createNonLeaves (nodes : List Bytes) (hash : HashType) (leafOffset : Nat) :
    Except GoErr (List Bytes) :=
  createNonLeavesFrom hash (leafOffset - 1) nodes

/-- The function `NewTree(data, hash)`; a `nil` hash provider is `none`. -/
def NewTree (data : List Bytes) (hash : Option HashType) : Except GoErr MerkleTree :=
  if data.length = 0 then
    .error (.error "the merkle tree should contains at least 1 piece of input")
  else
    match hash with
    | none => .error (.error "please specify hash algo")
    | some hash => do
        let branches := branchesLen data.length
        let nodes : List Bytes :=
          List.replicate (branches + data.length + (branches - data.length)) []
        -- the slice expression nodes[branches : branches+len(data)]
        if nodes.length < branches + data.length then
          .error (.panic "slice bounds out of range")
        else do
          let nodes1 ← createLeaves hash data branches nodes
          let nodes2 ← padLoop (List.replicate hash.HashLength 0)
            (nodes1.length - (data.length + branches)) (data.length + branches) nodes1
          let nodes3 ← createNonLeaves nodes2 hash branches
          .ok { hash := hash, nodes := nodes3, data := data }

/-- The search of `dataIndex` from position `i` on. -/
def dataIndexFrom (input : Bytes) : List Bytes → Nat → Except GoErr Nat
  | [], _ => .error (.error "data not found")
  | d :: ds, i => if d = input then .ok i else dataIndexFrom input ds (i + 1)

/-- The method `dataIndex(input)`. -/
def dataIndex (t : MerkleTree) (input : Bytes) : Except GoErr Nat :=
  dataIndexFrom input t.data 0

/-- The loop of `GenerateMProof`: `for ; i > 1; i /= 2` storing `nodes[i^1]` at
`hashes[currentIndex]`. -/
def proofLoop (nodes : List Bytes) : Nat → Nat → Nat → List Bytes → Except GoErr (List Bytes)
  | fuel, i, currentIndex, hashes =>
    if i > 1 then
      match fuel with
      | 0 => .error .outOfFuel
      | fuel + 1 => do
          let sibling ← getAt nodes (i ^^^ 1)
          let hashes1 ← setAt hashes currentIndex sibling
          proofLoop nodes fuel (i / 2) (currentIndex + 1) hashes1
    else .ok hashes

/-- The method `GenerateMProof(data)`. -/
def GenerateMProof (t : MerkleTree) (data : Bytes) : Except GoErr MerkleProof := do
  let index ← dataIndex t data
  let proofLen := ceilLog2 t.data.length
  let hashes : List Bytes := List.replicate proofLen []
  let start := index + t.nodes.length / 2
  let hashes1 ← proofLoop t.nodes start start 0 hashes
  .ok { Hashes := hashes1, Index := index }

/-- The method `MerkleRoot()`: the read `t.nodes[1]`. -/
def MerkleRoot (t : MerkleTree) : Except GoErr Bytes := getAt t.nodes 1

/-- The loop of `UpdateLeaf`: `for nodeIndex > 1` rewriting the parent of `nodeIndex`.
It returns the node slice as it stands when the loop ends, with the panic if it ended
in one. -/
def updateLoop (hash : HashType) : Nat → Nat → List Bytes → List Bytes × Option GoErr
  | fuel, nodeIndex, nodes =>
    if nodeIndex > 1 then
      match fuel with
      | 0 => (nodes, some .outOfFuel)
      | fuel + 1 =>
        let siblingIndex := nodeIndex ^^^ 1
        let parentIndex := nodeIndex / 2
        match getAt nodes nodeIndex, getAt nodes siblingIndex with
        | .ok cur, .ok sib =>
          let parent := if nodeIndex % 2 = 0 then hash.Hash [cur, sib] else hash.Hash [sib, cur]
          match setAt nodes parentIndex parent with
          | .ok nodes1 => updateLoop hash fuel parentIndex nodes1
          | .error e => (nodes, some e)
        | .error e, _ => (nodes, some e)
        | _, .error e => (nodes, some e)
    else (nodes, none)

/-- The method `UpdateLeaf(index, newData)`: the tree after the call and what the call
returned (`none` for a `nil` error). -/
def UpdateLeaf (t : MerkleTree) (index : Nat) (newData : Bytes) : MerkleTree × Option GoErr :=
  if index ≥ t.data.length then (t, some (.error "index out of bounds"))
  else
    let newLeaf := t.hash.Hash [newData]
    let data1 := t.data.set index newData
    let nodeIndex := index + t.nodes.length / 2
    match setAt t.nodes nodeIndex newLeaf with
    | .error e => ({ t with data := data1 }, some e)
    | .ok nodes1 =>
      let r := updateLoop t.hash nodeIndex nodeIndex nodes1
      ({ t with data := data1, nodes := r.1 }, r.2)

/-- The loop of `proofHash` over the proof's sibling digests. -/
def proofHashLoop (hashType : HashType) : List Bytes → Nat → Bytes → Bytes
  | [], _, acc => acc
  | h :: hs, index, acc =>
    proofHashLoop hashType hs (index / 2)
      (if index % 2 = 0 then hashType.Hash [acc, h] else hashType.Hash [h, acc])

/-- The function `proofHash(data, proof, hashType)`; `proof.Index + (1 << len)` is
`uint64` arithmetic. -/
def proofHash (data : Bytes) (proof : MerkleProof) (hashType : HashType) : Bytes :=
  let index := (proof.Index % 2 ^ 64 + (1 <<< proof.Hashes.length) % 2 ^ 64) % 2 ^ 64
  proofHashLoop hashType proof.Hashes index (hashType.Hash [data])

/-- The function `VerifyMProof(data, proof, root, hashType)`: the verdict and the
returned error. -/
def VerifyMProof (data : Bytes) (proof : MerkleProof) (root : Bytes) (hashType : HashType) :
    Bool × Option GoErr :=
  if root = proofHash data proof hashType then (true, none) else (false, none)

/-- The call `t.GenerateMProof(data)` as a transition of the receiver. The method body
assigns to no field of `t` and to no element of `t.data` or `t.nodes` (its only writes go
to the local slice `hashes`), so the tree after the call is the tree before it. -/
def GenerateMProofCall (t : MerkleTree) (data : Bytes) :
    MerkleTree × Except GoErr MerkleProof :=
  (t, GenerateMProof t data)

/-- The constant `_hashlength` of `blake2b.go`. -/
def _hashlength : Nat := 32

/-- A Go array `[_hashlength]byte`, the result type of `sha256.Sum256`. -/
abbrev HashArray := { l : Bytes // l.length = _hashlength }

/-- The statement `copy(dst[off:], src)`: the slice expression panics when `off` is past
the end of `dst`; `copy` then overwrites the first `min (len(dst) - off) (len(src))` bytes
of the window. -/
def copyAt (dst : Bytes) (off : Nat) (src : Bytes) : Except GoErr Bytes :=
  if dst.length < off then .error (.panic "slice bounds out of range")
  else .ok (dst.take off ++ src.take (dst.length - off) ++
    dst.drop (off + min (dst.length - off) src.length))

/-- The first loop of `BLAKE2b.Hash`: `concatDataLen += len(d)` over the arguments. -/
def BLAKE2b.concatDataLen : List Bytes → Nat → Nat
  | [], acc => acc
  | d :: ds, acc => BLAKE2b.concatDataLen ds (acc + d.length)

/-- The second loop of `BLAKE2b.Hash`: `copy(concatData[curOffset:], d)` and
`curOffset += len(d)` over the arguments. -/
def BLAKE2b.copyLoop : List Bytes → Nat → Bytes → Except GoErr Bytes
  | [], _, concatData => .ok concatData
  | d :: ds, curOffset, concatData => do
      let concatData1 ← copyAt concatData curOffset d
      BLAKE2b.copyLoop ds (curOffset + d.length) concatData1

/-- The method `BLAKE2b.Hash(data ...)` of `.idea/blake2b.go`. The library function
`sha256.Sum256` is the parameter `sum256`. -/
def BLAKE2b.Hash (sum256 : Bytes → HashArray) (data : List Bytes) : Except GoErr Bytes :=
  if data.length = 1 then do
    let d ← getAt data 0
    .ok (sum256 d).val
  else do
    let concatDataLen := BLAKE2b.concatDataLen data 0
    let concatData : Bytes := List.replicate concatDataLen 0
    let concatData1 ← BLAKE2b.copyLoop data 0 concatData
    .ok (sum256 concatData1).val

/-- The method `BLAKE2b.HashLength()`. -/
def BLAKE2b.HashLength : Nat := _hashlength

/-- The loop of `GenerateMProof` (`proofLoop`) with a record of its slice accesses: one
pair per iteration, the node position read (`i ^^^ 1`) and the slot of `hashes` written
(`currentIndex`). -/
def proofLoopTraced (nodes : List Bytes) :
    Nat → Nat → Nat → List Bytes → Except GoErr (List Bytes × List (Nat × Nat))
  | fuel, i, currentIndex, hashes =>
    if i > 1 then
      match fuel with
      | 0 => .error .outOfFuel
      | fuel + 1 => do
          let sibling ← getAt nodes (i ^^^ 1)
          let hashes1 ← setAt hashes currentIndex sibling
          let r ← proofLoopTraced nodes fuel (i / 2) (currentIndex + 1) hashes1
          .ok (r.1, (i ^^^ 1, currentIndex) :: r.2)
    else .ok (hashes, [])

/-- The method `GenerateMProof(data)` with the record of the slice accesses of its
loop. -/
def GenerateMProofTraced (t : MerkleTree) (data : Bytes) :
    Except GoErr (MerkleProof × List (Nat × Nat)) := do
  let index ← dataIndex t data
  let proofLen := ceilLog2 t.data.length
  let hashes : List Bytes := List.replicate proofLen []
  let start := index + t.nodes.length / 2
  let r ← proofLoopTraced t.nodes start start 0 hashes
  .ok ({ Hashes := r.1, Index := index }, r.2)

/-- The loop of `UpdateLeaf` (`updateLoop`) with a record of the node positions it
accesses: per iteration `nodeIndex` and `siblingIndex` (read) and `parentIndex`
(written). -/
def updateLoopTraced (hash : HashType) :
    Nat → Nat → List Bytes → (List Bytes × Option GoErr) × List Nat
  | fuel, nodeIndex, nodes =>
    if nodeIndex > 1 then
      match fuel with
      | 0 => ((nodes, some .outOfFuel), [])
      | fuel + 1 =>
        let siblingIndex := nodeIndex ^^^ 1
        let parentIndex := nodeIndex / 2
        match getAt nodes nodeIndex, getAt nodes siblingIndex with
        | .ok cur, .ok sib =>
          let parent := if nodeIndex % 2 = 0 then hash.Hash [cur, sib] else hash.Hash [sib, cur]
          match setAt nodes parentIndex parent with
          | .ok nodes1 =>
            let r := updateLoopTraced hash fuel parentIndex nodes1
            (r.1, nodeIndex :: siblingIndex :: parentIndex :: r.2)
          | .error e => ((nodes, some e), [nodeIndex, siblingIndex, parentIndex])
        | .error e, _ => ((nodes, some e), [nodeIndex, siblingIndex])
        | _, .error e => ((nodes, some e), [nodeIndex, siblingIndex])
    else ((nodes, none), [])

/-- The method `UpdateLeaf(index, newData)` with the record of the node positions it
accesses: the leaf position first, then those of the loop. -/
def UpdateLeafTraced (t : MerkleTree) (index : Nat) (newData : Bytes) :
    (MerkleTree × Option GoErr) × List Nat :=
  if index ≥ t.data.length then ((t, some (.error "index out of bounds")), [])
  else
    let newLeaf := t.hash.Hash [newData]
    let data1 := t.data.set index newData
    let nodeIndex := index + t.nodes.length / 2
    match setAt t.nodes nodeIndex newLeaf with
    | .error e => (({ t with data := data1 }, some e), [nodeIndex])
    | .ok nodes1 =>
      let r := updateLoopTraced t.hash nodeIndex nodeIndex nodes1
      (({ t with data := data1, nodes := r.1.1 }, r.1.2), nodeIndex :: r.2)

/-- A finite sequence of `UpdateLeaf(index, newData)` calls on a tree: the tree after the
last call and what each call returned. -/
def runUpdates : MerkleTree → List (Nat × Bytes) → MerkleTree × List (Option GoErr)
  | t, [] => (t, [])
  | t, (index, newData) :: rest =>
    let r := runUpdates (UpdateLeaf t index newData).1 rest
    (r.1, (UpdateLeaf t index newData).2 :: r.2)

/-- A toy hash provider that hashes the concatenation of its arguments: the digest is
the concatenation itself. -/
def concatHash : HashType where
  Hash := fun args => args.flatten
  HashLength := 1

/-- One argument written out with a marker byte `1` in front of every data byte and the
terminator `0` at the end. -/
def encodeArg (a : Bytes) : Bytes := a.flatMap (fun b => [1, b]) ++ [0]

/-- A toy hash provider used to run the model: the digest is the list of the encoded
arguments, so different argument lists give different digests. -/
def encodeHash : HashType where
  Hash := fun args => args.flatMap encodeArg
  HashLength := 2

/-! ## Specification-side definitions -/

/-- The structural invariant of a tree's node slice, for a tree with `n` leaves and
`b = branchesLen n`: the slice has length `2 * b`, slot `0` is never written, the slots
`b .. b+n-1` hold the leaf digests, the slots `b+n .. 2*b-1` hold the zero digest, and
every slot `1 ≤ i < b` holds the hash of its two children. -/
structure WellFormed (t : MerkleTree) : Prop where
  nonempty : 0 < t.data.length
  len : t.nodes.length = 2 * branchesLen t.data.length
  unused : t.nodes.getD 0 [] = []
  leaves : ∀ j, j < t.data.length →
    t.nodes.getD (branchesLen t.data.length + j) [] = t.hash.Hash [t.data.getD j []]
  padding : ∀ p, branchesLen t.data.length + t.data.length ≤ p →
    p < 2 * branchesLen t.data.length → t.nodes.getD p [] = List.replicate t.hash.HashLength 0
  inner : ∀ i, 1 ≤ i → i < branchesLen t.data.length →
    t.nodes.getD i [] = t.hash.Hash [t.nodes.getD (2 * i) [], t.nodes.getD (2 * i + 1) []]

/-- The sibling digests met on the walk `p, p/2, p/4, ...` of `levels` steps: the digest
at `p ^^^ 1` first. -/
def siblingPath (nodes : List Bytes) : Nat → Nat → List Bytes
  | 0, _ => []
  | levels + 1, p => nodes.getD (p ^^^ 1) [] :: siblingPath nodes levels (p / 2)

/-- The recursively defined Merkle root of a list of `2 ^ depth` digests: the root of a
single digest is that digest, and the root of a longer list is the hash of the roots of
its two halves. -/
def merkle (hash : HashType) : Nat → List Bytes → Bytes
  | 0, l => l.getD 0 []
  | depth + 1, l =>
    hash.Hash [merkle hash depth (l.take (2 ^ depth)), merkle hash depth (l.drop (2 ^ depth))]

/-- The leaf digests of `data` padded on the right with zero digests to `branchesLen`
entries. -/
def paddedDigests (hash : HashType) (data : List Bytes) : List Bytes :=
  data.map (fun d => hash.Hash [d]) ++
    List.replicate (branchesLen data.length - data.length) (List.replicate hash.HashLength 0)

/-- A hash provider that never returns the same digest for two different argument
sequences. -/
def CollisionFree (hash : HashType) : Prop :=
  ∀ xs ys : List Bytes, hash.Hash xs = hash.Hash ys → xs = ys

/-- One step of the verifier's candidate computation as the specification words it: the
candidate is hashed with the sibling on the right when the position is even and on the
left when it is odd, and the position is halved. -/
def candidateStep (hash : HashType) (st : Bytes × Nat) (sibling : Bytes) : Bytes × Nat :=
  (if st.2 % 2 = 0 then hash.Hash [st.1, sibling] else hash.Hash [sibling, st.1], st.2 / 2)

/-- The verifier's candidate as the specification words it, over the integers: start from
`Hash(data)` at position `Index + 2 ^ len(Hashes)` and take one step per sibling in proof
order. -/
def candidate (hash : HashType) (data : Bytes) (proof : MerkleProof) : Bytes :=
  (proof.Hashes.foldl (candidateStep hash)
    (hash.Hash [data], proof.Index + 2 ^ proof.Hashes.length)).1

/-! ## Arithmetic of the index computations -/

theorem ceilLog2Go_spec (n : Nat) : ∀ fuel k, n ≤ 2 ^ (k + fuel) → (∀ j, j < k → ¬ n ≤ 2 ^ j) →
    n ≤ 2 ^ ceilLog2Go n fuel k ∧ ∀ j, j < ceilLog2Go n fuel k → ¬ n ≤ 2 ^ j := by
  intro fuel
  induction fuel with
  | zero => intro k h1 h2; exact ⟨by simpa [ceilLog2Go] using h1, by simpa [ceilLog2Go] using h2⟩
  | succ f ih =>
    intro k h1 h2
    unfold ceilLog2Go
    split
    · exact ⟨by assumption, h2⟩
    · rename_i hk
      apply ih (k + 1)
      · rwa [show k + 1 + f = k + (f + 1) by omega]
      · intro j hj
        rcases Nat.lt_succ_iff_lt_or_eq.mp hj with h | h
        · exact h2 j h
        · subst h; exact hk

theorem le_two_pow_ceilLog2 (n : Nat) : n ≤ 2 ^ ceilLog2 n := by
  have h : n ≤ 2 ^ (0 + n) := by
    rw [Nat.zero_add]; exact Nat.le_of_lt (Nat.lt_two_pow n)
  exact (ceilLog2Go_spec n n 0 h (fun j hj => absurd hj (Nat.not_lt_zero j))).1

theorem ceilLog2_le_of_le_two_pow {n k : Nat} (h : n ≤ 2 ^ k) : ceilLog2 n ≤ k := by
  have h0 : n ≤ 2 ^ (0 + n) := by
    rw [Nat.zero_add]; exact Nat.le_of_lt (Nat.lt_two_pow n)
  by_contra hlt
  exact (ceilLog2Go_spec n n 0 h0 (fun j hj => absurd hj (Nat.not_lt_zero j))).2 k
    (Nat.lt_of_not_le hlt) h

theorem ceilLog2_eq_clog (n : Nat) : ceilLog2 n = Nat.clog 2 n := by
  apply Nat.le_antisymm
  · exact ceilLog2_le_of_le_two_pow (Nat.le_pow_clog (by decide) n)
  · exact (Nat.le_pow_iff_clog_le (by decide)).mp (le_two_pow_ceilLog2 n)

theorem xor_one_div (i : Nat) : (i ^^^ 1) / 2 = i / 2 := by
  rw [Nat.xor_div_two]; simp

theorem xor_one_even {i : Nat} (h : i % 2 = 0) : i ^^^ 1 = i + 1 := by
  have h1 := xor_one_div i
  have h2 : (i ^^^ 1) % 2 = 1 := by
    rw [Nat.xor_mod_two_eq_one]; omega
  omega

theorem xor_one_odd {i : Nat} (h : i % 2 = 1) : i ^^^ 1 = i - 1 := by
  have h1 := xor_one_div i
  have h2 : ¬ (i ^^^ 1) % 2 = 1 := by
    rw [Nat.xor_mod_two_eq_one]; omega
  omega
/-! ## Slice accesses and the loops of `NewTree` -/

theorem getAt_ok {xs : List Bytes} {i : Nat} (h : i < xs.length) :
    getAt xs i = .ok (xs.getD i []) := by
  simp [getAt, List.getD_eq_getElem?_getD, List.getElem?_eq_getElem h]

theorem setAt_ok {xs : List Bytes} {i : Nat} (h : i < xs.length) (v : Bytes) :
    setAt xs i v = .ok (xs.set i v) := by
  simp [setAt, h]

theorem getD_set (xs : List Bytes) (i j : Nat) (v : Bytes) :
    (xs.set i v).getD j [] = if i = j ∧ i < xs.length then v else xs.getD j [] := by
  simp only [List.getD_eq_getElem?_getD, List.getElem?_set]
  by_cases hij : i = j
  · subst hij
    by_cases hl : i < xs.length
    · simp [hl]
    · simp [hl, List.getElem?_eq_none (Nat.le_of_not_lt hl)]
  · simp [hij]

theorem getElem?_eq_some_getD {xs : List Bytes} {i : Nat} (h : i < xs.length) :
    xs[i]? = some (xs.getD i []) := by
  simp [List.getD_eq_getElem?_getD, List.getElem?_eq_getElem h]

theorem createLeaves_spec (hash : HashType) : ∀ (data : List Bytes) (off : Nat) (nodes : List Bytes),
    off + data.length ≤ nodes.length →
    ∃ nodes1, createLeaves hash data off nodes = .ok nodes1 ∧ nodes1.length = nodes.length ∧
      ∀ i, nodes1.getD i [] =
        if off ≤ i ∧ i < off + data.length then hash.Hash [data.getD (i - off) []]
        else nodes.getD i [] := by
  intro data
  induction data with
  | nil => intro off nodes _; exact ⟨nodes, rfl, rfl, by intro i; rw [if_neg]; simp only [List.length_nil]; omega⟩
  | cons d ds ih =>
    intro off nodes hlen
    simp only [List.length_cons] at hlen
    have hoff : off < nodes.length := by omega
    obtain ⟨n1, h1, h2, h3⟩ := ih (off + 1) (nodes.set off (hash.Hash [d]))
      (by rw [List.length_set]; omega)
    refine ⟨n1, ?_, ?_, ?_⟩
    · simp only [createLeaves, setAt_ok hoff, bind, Except.bind]; exact h1
    · rw [h2, List.length_set]
    · intro i
      rw [h3 i, getD_set]
      simp only [List.length_cons]
      by_cases hi : off = i
      · subst hi; simp [hoff]
      · by_cases hr : off + 1 ≤ i ∧ i < off + 1 + ds.length
        · have : off ≤ i ∧ i < off + (ds.length + 1) := by omega
          rw [if_pos hr, if_pos this]
          have : i - off = (i - (off + 1)) + 1 := by omega
          rw [this, List.getD_cons_succ]
        · have : ¬ (off ≤ i ∧ i < off + (ds.length + 1)) := by omega
          rw [if_neg hr, if_neg this, if_neg (by tauto)]

theorem padLoop_spec (zero : Bytes) : ∀ (count i : Nat) (nodes : List Bytes),
    i + count ≤ nodes.length →
    ∃ nodes1, padLoop zero count i nodes = .ok nodes1 ∧ nodes1.length = nodes.length ∧
      ∀ p, nodes1.getD p [] = if i ≤ p ∧ p < i + count then zero else nodes.getD p [] := by
  intro count
  induction count with
  | zero => intro i nodes _; exact ⟨nodes, rfl, rfl, by intro p; rw [if_neg]; omega⟩
  | succ c ih =>
    intro i nodes hlen
    have hi : i < nodes.length := by omega
    obtain ⟨n1, h1, h2, h3⟩ := ih (i + 1) (nodes.set i zero) (by rw [List.length_set]; omega)
    refine ⟨n1, ?_, ?_, ?_⟩
    · simp only [padLoop, setAt_ok hi, bind, Except.bind]; exact h1
    · rw [h2, List.length_set]
    · intro p
      rw [h3 p, getD_set]
      by_cases hp : i = p
      · subst hp; simp [hi]
      · by_cases hr : i + 1 ≤ p ∧ p < i + 1 + c
        · have : i ≤ p ∧ p < i + (c + 1) := by omega
          rw [if_pos hr, if_pos this]
        · have : ¬ (i ≤ p ∧ p < i + (c + 1)) := by omega
          rw [if_neg hr, if_neg this, if_neg (by tauto)]

theorem createNonLeavesFrom_spec (hash : HashType) : ∀ (i : Nat) (nodes : List Bytes),
    2 * i + 1 < nodes.length →
    ∃ nodes1, createNonLeavesFrom hash i nodes = .ok nodes1 ∧ nodes1.length = nodes.length ∧
      (∀ p, i < p → nodes1.getD p [] = nodes.getD p []) ∧
      nodes1.getD 0 [] = nodes.getD 0 [] ∧
      ∀ p, 1 ≤ p → p ≤ i →
        nodes1.getD p [] = hash.Hash [nodes1.getD (2 * p) [], nodes1.getD (2 * p + 1) []] := by
  intro i
  induction i with
  | zero =>
    intro nodes _
    exact ⟨nodes, rfl, rfl, fun _ _ => rfl, rfl, fun p h1 h2 => by omega⟩
  | succ i ih =>
    intro nodes hlen
    have hl : (i + 1) * 2 < nodes.length := by omega
    have hr : (i + 1) * 2 + 1 < nodes.length := by omega
    have hs : i + 1 < nodes.length := by omega
    obtain ⟨n1, h1, h2, h3, h0, h4⟩ := ih
      (nodes.set (i + 1) (hash.Hash [nodes.getD ((i + 1) * 2) [], nodes.getD ((i + 1) * 2 + 1) []]))
      (by rw [List.length_set]; omega)
    refine ⟨n1, ?_, ?_, ?_, ?_, ?_⟩
    · simp only [createNonLeavesFrom, getAt_ok hl, getAt_ok hr, setAt_ok hs, bind, Except.bind]
      exact h1
    · rw [h2, List.length_set]
    · intro p hp
      rw [h3 p (by omega), getD_set, if_neg (by omega)]
    · rw [h0, getD_set, if_neg (by omega)]
    · intro p hp1 hp2
      rcases Nat.lt_or_ge p (i + 1) with hlt | hge
      · exact h4 p hp1 (by omega)
      · have hp : p = i + 1 := by omega
        subst hp
        rw [h3 (i + 1) (by omega), h3 (2 * (i + 1)) (by omega), h3 (2 * (i + 1) + 1) (by omega)]
        rw [getD_set, getD_set, getD_set, if_pos ⟨rfl, hs⟩, if_neg (by omega), if_neg (by omega)]
        rw [Nat.mul_comm 2 (i + 1)]
/-! ## `NewTree` establishes the invariant -/

theorem le_branchesLen (n : Nat) : n ≤ branchesLen n := le_two_pow_ceilLog2 n

theorem branchesLen_pos (n : Nat) : 0 < branchesLen n := Nat.pow_pos (by decide)

theorem getD_replicate_nil (k i : Nat) : (List.replicate k ([] : Bytes)).getD i [] = [] := by
  simp only [List.getD_eq_getElem?_getD, List.getElem?_replicate]
  split <;> rfl

theorem NewTree_wellFormed (data : List Bytes) (hash : HashType) (hne : data ≠ []) :
    ∃ t, NewTree data (some hash) = .ok t ∧ t.hash = hash ∧ t.data = data ∧ WellFormed t := by
  have hn : 0 < data.length := List.length_pos.mpr hne
  have hb := le_branchesLen data.length
  have hbp := branchesLen_pos data.length
  obtain ⟨n1, e1, l1, p1⟩ := createLeaves_spec hash data (branchesLen data.length)
    (List.replicate (branchesLen data.length + data.length +
      (branchesLen data.length - data.length)) [])
    (by rw [List.length_replicate]; omega)
  rw [List.length_replicate] at l1
  obtain ⟨n2, e2, l2, p2⟩ := padLoop_spec (List.replicate hash.HashLength 0)
    (n1.length - (data.length + branchesLen data.length))
    (data.length + branchesLen data.length) n1 (by omega)
  obtain ⟨n3, e3, l3, p3, z3, i3⟩ := createNonLeavesFrom_spec hash
    (branchesLen data.length - 1) n2 (by omega)
  refine ⟨{ hash := hash, nodes := n3, data := data }, ?_, rfl, rfl, ?_⟩
  · unfold NewTree
    rw [if_neg (by omega)]
    simp only [List.length_replicate, bind, Except.bind, e1, e2, createNonLeaves, e3]
    rw [if_neg (by omega)]
  · refine ⟨hn, ?_, ?_, ?_, ?_, ?_⟩ <;> dsimp only
    · omega
    · rw [z3, p2 0, if_neg (by omega), p1 0, if_neg (by omega), getD_replicate_nil]
    · intro j hj
      rw [p3 _ (by omega), p2, if_neg (by omega), p1, if_pos (by omega)]
      rw [Nat.add_sub_cancel_left]
    · intro p hp1 hp2
      rw [p3 _ (by omega), p2, if_pos (by omega)]
    · intro i hi1 hi2
      exact i3 i hi1 (by omega)
/-! ## Proof generation and verification on a well-formed tree -/

theorem siblingPath_length (nodes : List Bytes) : ∀ (k p : Nat), (siblingPath nodes k p).length = k := by
  intro k
  induction k with
  | zero => intro p; rfl
  | succ k ih => intro p; simp [siblingPath, ih]

theorem ext_getD {xs ys : List Bytes} (hl : xs.length = ys.length)
    (h : ∀ i, i < xs.length → xs.getD i [] = ys.getD i []) : xs = ys := by
  apply List.ext_getElem hl
  intro i h1 h2
  have := h i h1
  simpa [List.getD_eq_getElem?_getD, List.getElem?_eq_getElem h1, List.getElem?_eq_getElem h2]
    using this

theorem xor_one_lt {p k : Nat} (h : p < 2 ^ (k + 1)) : p ^^^ 1 < 2 ^ (k + 1) :=
  Nat.xor_lt_two_pow h (Nat.one_lt_two_pow (by omega))

theorem proofLoop_spec (nodes : List Bytes) : ∀ (k p fuel cur : Nat) (hashes : List Bytes),
    2 ^ k ≤ p → p < 2 ^ (k + 1) → p ≤ fuel → (k = 0 ∨ 2 ^ (k + 1) ≤ nodes.length) →
    cur + k ≤ hashes.length →
    ∃ hashes1, proofLoop nodes fuel p cur hashes = .ok hashes1 ∧
      hashes1.length = hashes.length ∧
      ∀ i, hashes1.getD i [] =
        if cur ≤ i ∧ i < cur + k then (siblingPath nodes k p).getD (i - cur) []
        else hashes.getD i [] := by
  intro k
  induction k with
  | zero =>
    intro p fuel cur hashes h1 h2 _ _ _
    have hp : p = 1 := by omega
    subst hp
    refine ⟨hashes, ?_, rfl, ?_⟩
    · unfold proofLoop; simp
    · intro i; rw [if_neg (by omega)]
  | succ k ih =>
    intro p fuel cur hashes h1 h2 hf hn hc
    have hk : 1 ≤ 2 ^ k := Nat.pow_pos (by decide)
    have hp2 : 2 ^ (k + 1) = 2 * 2 ^ k := by rw [Nat.pow_succ]; omega
    have hp3 : 2 ^ (k + 1 + 1) = 2 * 2 ^ (k + 1) := by rw [Nat.pow_succ]; omega
    have hp : 1 < p := by omega
    have hlen : 2 ^ (k + 1 + 1) ≤ nodes.length := by omega
    have hx : p ^^^ 1 < nodes.length := Nat.lt_of_lt_of_le (xor_one_lt h2) hlen
    have hcur : cur < hashes.length := by omega
    obtain ⟨fuel1, rfl⟩ : ∃ f, fuel = f + 1 := ⟨fuel - 1, by omega⟩
    obtain ⟨r, e1, e2, e3⟩ := ih (p / 2) fuel1 (cur + 1)
      (hashes.set cur (nodes.getD (p ^^^ 1) [])) (by omega) (by omega) (by omega)
      (by omega) (by rw [List.length_set]; omega)
    refine ⟨r, ?_, ?_, ?_⟩
    · unfold proofLoop
      rw [if_pos hp]
      simp only [getAt_ok hx, setAt_ok hcur, bind, Except.bind]
      exact e1
    · rw [e2, List.length_set]
    · intro i
      rw [e3 i, getD_set]
      by_cases hi : cur = i
      · subst hi
        rw [if_neg (by omega), if_pos ⟨rfl, hcur⟩, if_pos (by omega), Nat.sub_self]
        rfl
      · by_cases hr : cur + 1 ≤ i ∧ i < cur + 1 + k
        · rw [if_pos hr, if_pos (by omega)]
          have : i - cur = (i - (cur + 1)) + 1 := by omega
          rw [this]; rfl
        · rw [if_neg hr, if_neg (by tauto), if_neg (by omega)]

theorem proofHashLoop_siblingPath (hash : HashType) (nodes : List Bytes) (b : Nat)
    (hin : ∀ i, 1 ≤ i → i < b →
      nodes.getD i [] = hash.Hash [nodes.getD (2 * i) [], nodes.getD (2 * i + 1) []]) :
    ∀ (k p : Nat), 2 ^ k ≤ p → p < 2 ^ (k + 1) → p < 2 * b →
      proofHashLoop hash (siblingPath nodes k p) p (nodes.getD p []) = nodes.getD 1 [] := by
  intro k
  induction k with
  | zero =>
    intro p h1 h2 _
    have hp : p = 1 := by omega
    subst hp; rfl
  | succ k ih =>
    intro p h1 h2 hb
    have hk : 1 ≤ 2 ^ k := Nat.pow_pos (by decide)
    have hp2 : 2 ^ (k + 1) = 2 * 2 ^ k := by rw [Nat.pow_succ]; omega
    have hp3 : 2 ^ (k + 1 + 1) = 2 * 2 ^ (k + 1) := by rw [Nat.pow_succ]; omega
    have hpar := hin (p / 2) (by omega) (by omega)
    simp only [siblingPath, proofHashLoop]
    rw [← ih (p / 2) (by omega) (by omega) (by omega)]
    congr 1
    rw [hpar]
    by_cases he : p % 2 = 0
    · rw [if_pos he, xor_one_even he]
      have : 2 * (p / 2) = p := by omega
      rw [this]
    · rw [if_neg he, xor_one_odd (by omega)]
      have e1 : 2 * (p / 2) = p - 1 := by omega
      have e2 : 2 * (p / 2) + 1 = p := by omega
      rw [e2, e1]

theorem dataIndexFrom_spec (input : Bytes) : ∀ (data : List Bytes) (i : Nat), input ∈ data →
    ∃ j, dataIndexFrom input data i = .ok (i + j) ∧ j < data.length ∧
      data.getD j [] = input ∧ ∀ j1, j1 < j → data.getD j1 [] ≠ input := by
  intro data
  induction data with
  | nil => intro i h; simp at h
  | cons d ds ih =>
    intro i h
    by_cases hd : d = input
    · refine ⟨0, ?_, by simp, by simpa using hd, fun j1 hj => absurd hj (Nat.not_lt_zero _)⟩
      simp [dataIndexFrom, hd]
    · have hmem : input ∈ ds := by
        rcases List.mem_cons.mp h with h | h
        · exact absurd h.symm hd
        · exact h
      obtain ⟨j, e1, e2, e3, e4⟩ := ih (i + 1) hmem
      refine ⟨j + 1, ?_, by simp; omega, by simpa using e3, ?_⟩
      · simp only [dataIndexFrom, if_neg hd, e1]
        congr 1; omega
      · intro j1 hj1
        cases j1 with
        | zero => simpa using hd
        | succ j1 => simpa using e4 j1 (by omega)
theorem nodes_length_half {t : MerkleTree} (hw : WellFormed t) :
    t.nodes.length / 2 = branchesLen t.data.length := by
  rw [hw.len]; omega

theorem MerkleRoot_ok {t : MerkleTree} (hw : WellFormed t) :
    MerkleRoot t = .ok (t.nodes.getD 1 []) := by
  have := branchesLen_pos t.data.length
  exact getAt_ok (by rw [hw.len]; omega)

theorem GenerateMProof_spec {t : MerkleTree} (hw : WellFormed t) {d : Bytes} (hd : d ∈ t.data) :
    ∃ j, j < t.data.length ∧ t.data.getD j [] = d ∧ (∀ j1, j1 < j → t.data.getD j1 [] ≠ d) ∧
      GenerateMProof t d = .ok
        { Hashes := siblingPath t.nodes (ceilLog2 t.data.length) (j + branchesLen t.data.length),
          Index := j } := by
  obtain ⟨j, e1, e2, e3, e4⟩ := dataIndexFrom_spec d t.data 0 hd
  rw [Nat.zero_add] at e1
  have hb := le_branchesLen t.data.length
  have hbd : branchesLen t.data.length = 2 ^ ceilLog2 t.data.length := rfl
  have hp2 : 2 ^ (ceilLog2 t.data.length + 1) = 2 * 2 ^ ceilLog2 t.data.length := by
    rw [Nat.pow_succ]; omega
  obtain ⟨r, l1, l2, l3⟩ := proofLoop_spec t.nodes (ceilLog2 t.data.length)
    (j + branchesLen t.data.length) (j + branchesLen t.data.length) 0
    (List.replicate (ceilLog2 t.data.length) []) (by omega) (by omega) (Nat.le_refl _)
    (Or.inr (by rw [hw.len]; omega)) (by rw [List.length_replicate]; omega)
  rw [List.length_replicate] at l2
  have hr : r = siblingPath t.nodes (ceilLog2 t.data.length) (j + branchesLen t.data.length) := by
    apply ext_getD
    · rw [l2, siblingPath_length]
    · intro i hi
      rw [l3 i, if_pos (by omega), Nat.sub_zero]
  refine ⟨j, e2, e3, e4, ?_⟩
  simp only [GenerateMProof, dataIndex, e1, bind, Except.bind, nodes_length_half hw, l1, hr]

theorem proofHash_generated {t : MerkleTree} (hw : WellFormed t) {j : Nat}
    (hj : j < t.data.length) (hlen : t.data.length < 2 ^ 63) :
    proofHash (t.data.getD j [])
      { Hashes := siblingPath t.nodes (ceilLog2 t.data.length) (j + branchesLen t.data.length),
        Index := j } t.hash = t.nodes.getD 1 [] := by
  have hb := le_branchesLen t.data.length
  have hbd : branchesLen t.data.length = 2 ^ ceilLog2 t.data.length := rfl
  have hp2 : 2 ^ (ceilLog2 t.data.length + 1) = 2 * 2 ^ ceilLog2 t.data.length := by
    rw [Nat.pow_succ]; omega
  have hm : ceilLog2 t.data.length ≤ 63 := ceilLog2_le_of_le_two_pow (Nat.le_of_lt hlen)
  have hpow : 2 ^ ceilLog2 t.data.length ≤ 2 ^ 63 := Nat.pow_le_pow_right (by decide) hm
  have hidx : (j % 2 ^ 64 + (1 <<< ceilLog2 t.data.length) % 2 ^ 64) % 2 ^ 64
      = j + branchesLen t.data.length := by
    rw [Nat.one_shiftLeft, hbd]
    omega
  simp only [proofHash, siblingPath_length, hidx]
  rw [← hw.leaves j hj, Nat.add_comm (branchesLen t.data.length) j]
  exact proofHashLoop_siblingPath t.hash t.nodes (branchesLen t.data.length) hw.inner
    (ceilLog2 t.data.length) (j + branchesLen t.data.length) (by omega) (by omega) (by omega)

theorem roundTrip_of_wellFormed {t : MerkleTree} (hw : WellFormed t) {d : Bytes}
    (hd : d ∈ t.data) (hlen : t.data.length < 2 ^ 63) :
    ∃ proof root, GenerateMProof t d = .ok proof ∧ MerkleRoot t = .ok root ∧
      VerifyMProof d proof root t.hash = (true, none) := by
  obtain ⟨j, h1, h2, _, h4⟩ := GenerateMProof_spec hw hd
  refine ⟨_, _, h4, MerkleRoot_ok hw, ?_⟩
  have := proofHash_generated hw h1 hlen
  rw [h2] at this
  simp [VerifyMProof, this]
/-! ## `UpdateLeaf` preserves the invariant -/

theorem div_two_pow_succ (p j : Nat) : p / 2 ^ (j + 1) = p / 2 / 2 ^ j := by
  rw [Nat.pow_succ, Nat.mul_comm, Nat.div_div_eq_div_mul]

theorem div_two_pow_le_half (p : Nat) {j : Nat} (hj : 1 ≤ j) : p / 2 ^ j ≤ p / 2 := by
  obtain ⟨j1, rfl⟩ : ∃ j1, j = j1 + 1 := ⟨j - 1, by omega⟩
  rw [div_two_pow_succ]
  exact Nat.div_le_self _ _

theorem one_le_div_two_pow {p k j : Nat} (hp : 2 ^ k ≤ p) (hj : j ≤ k) : 1 ≤ p / 2 ^ j := by
  have h1 : 2 ^ j ≤ 2 ^ k := Nat.pow_le_pow_right (by decide) hj
  exact (Nat.one_le_div_iff (Nat.pow_pos (by decide))).mpr (Nat.le_trans h1 hp)

theorem updateLoop_spec (hash : HashType) : ∀ (k p fuel : Nat) (nodes : List Bytes),
    2 ^ k ≤ p → p < 2 ^ (k + 1) → p ≤ fuel → (k = 0 ∨ 2 ^ (k + 1) ≤ nodes.length) →
    ∃ nodes1, updateLoop hash fuel p nodes = (nodes1, none) ∧
      nodes1.length = nodes.length ∧
      (∀ i, (∀ j, 1 ≤ j → j ≤ k → i ≠ p / 2 ^ j) → nodes1.getD i [] = nodes.getD i []) ∧
      (∀ j, 1 ≤ j → j ≤ k → nodes1.getD (p / 2 ^ j) [] =
        hash.Hash [nodes1.getD (2 * (p / 2 ^ j)) [], nodes1.getD (2 * (p / 2 ^ j) + 1) []]) := by
  intro k
  induction k with
  | zero =>
    intro p fuel nodes h1 h2 _ _
    have hp : p = 1 := by omega
    subst hp
    refine ⟨nodes, ?_, rfl, fun _ _ => rfl, fun j hj1 hj2 => by omega⟩
    unfold updateLoop; simp
  | succ k ih =>
    intro p fuel nodes h1 h2 hf hn
    have hk : 1 ≤ 2 ^ k := Nat.pow_pos (by decide)
    have hp2 : 2 ^ (k + 1) = 2 * 2 ^ k := by rw [Nat.pow_succ]; omega
    have hp3 : 2 ^ (k + 1 + 1) = 2 * 2 ^ (k + 1) := by rw [Nat.pow_succ]; omega
    have hp : 1 < p := by omega
    have hlen : 2 ^ (k + 1 + 1) ≤ nodes.length := by omega
    have hx : p ^^^ 1 < nodes.length := Nat.lt_of_lt_of_le (xor_one_lt h2) hlen
    have hpl : p < nodes.length := by omega
    have hpar : p / 2 < nodes.length := by omega
    obtain ⟨fuel1, rfl⟩ : ∃ f, fuel = f + 1 := ⟨fuel - 1, by omega⟩
    have hparent : (if p % 2 = 0 then hash.Hash [nodes.getD p [], nodes.getD (p ^^^ 1) []]
        else hash.Hash [nodes.getD (p ^^^ 1) [], nodes.getD p []])
        = hash.Hash [nodes.getD (2 * (p / 2)) [], nodes.getD (2 * (p / 2) + 1) []] := by
      by_cases he : p % 2 = 0
      · rw [if_pos he, xor_one_even he]
        have : 2 * (p / 2) = p := by omega
        rw [this]
      · rw [if_neg he, xor_one_odd (by omega)]
        have e1 : 2 * (p / 2) = p - 1 := by omega
        have e2 : 2 * (p / 2) + 1 = p := by omega
        rw [e2, e1]
    obtain ⟨r, e1, e2, e3, e4⟩ := ih (p / 2) fuel1
      (nodes.set (p / 2) (hash.Hash [nodes.getD (2 * (p / 2)) [], nodes.getD (2 * (p / 2) + 1) []]))
      (by omega) (by omega) (by omega) (by rw [List.length_set]; omega)
    have hanc : ∀ j, 1 ≤ j → p / 2 / 2 ^ j < p / 2 := by
      intro j hj
      have := div_two_pow_le_half (p / 2) hj
      omega
    refine ⟨r, ?_, ?_, ?_, ?_⟩
    · unfold updateLoop
      rw [if_pos hp]
      simp only [getAt_ok hpl, getAt_ok hx, hparent, setAt_ok hpar]
      exact e1
    · rw [e2, List.length_set]
    · intro i hi
      have hi1 : i ≠ p / 2 := by simpa using hi 1 (Nat.le_refl 1) (by omega)
      rw [e3 i, getD_set, if_neg (by omega)]
      intro j hj1 hj2
      rw [← div_two_pow_succ]
      exact hi (j + 1) (by omega) (by omega)
    · intro j hj1 hj2
      obtain ⟨j1, rfl⟩ : ∃ j1, j = j1 + 1 := ⟨j - 1, by omega⟩
      rw [div_two_pow_succ]
      rcases Nat.eq_zero_or_pos j1 with h0 | hpos
      · subst h0
        simp only [Nat.pow_zero, Nat.div_one]
        have hne : ∀ c, p / 2 ≤ c → ∀ j, 1 ≤ j → j ≤ k → c ≠ p / 2 / 2 ^ j := by
          intro c hc j hj _
          have := hanc j hj
          omega
        rw [e3 (p / 2) (hne _ (Nat.le_refl _)), e3 (2 * (p / 2)) (hne _ (by omega)),
          e3 (2 * (p / 2) + 1) (hne _ (by omega))]
        rw [getD_set, getD_set, getD_set, if_pos ⟨rfl, hpar⟩, if_neg (by omega),
          if_neg (by omega)]
      · exact e4 j1 hpos (by omega)
theorem getD_set_data (xs : List Bytes) (i j : Nat) (v : Bytes) (hi : i < xs.length) :
    (xs.set i v).getD j [] = if i = j then v else xs.getD j [] := by
  rw [getD_set]
  by_cases h : i = j
  · rw [if_pos ⟨h, hi⟩, if_pos h]
  · rw [if_neg (by tauto), if_neg h]

theorem UpdateLeaf_spec {t : MerkleTree} (hw : WellFormed t) (index : Nat)
    (hi : index < t.data.length) (newData : Bytes) :
    (UpdateLeaf t index newData).2 = none ∧
    (UpdateLeaf t index newData).1.hash = t.hash ∧
    (UpdateLeaf t index newData).1.data = t.data.set index newData ∧
    (UpdateLeaf t index newData).1.nodes.length = t.nodes.length ∧
    (∀ p, (∀ j, j ≤ ceilLog2 t.data.length → p ≠ (index + branchesLen t.data.length) / 2 ^ j) →
      (UpdateLeaf t index newData).1.nodes.getD p [] = t.nodes.getD p []) ∧
    WellFormed (UpdateLeaf t index newData).1 := by
  have hb := le_branchesLen t.data.length
  have hbd : branchesLen t.data.length = 2 ^ ceilLog2 t.data.length := rfl
  have hp2 : 2 ^ (ceilLog2 t.data.length + 1) = 2 * 2 ^ ceilLog2 t.data.length := by
    rw [Nat.pow_succ]; omega
  have hlen := hw.len
  have hpos : index + branchesLen t.data.length < t.nodes.length := by omega
  obtain ⟨r, e1, e2, e3, e4⟩ := updateLoop_spec t.hash (ceilLog2 t.data.length)
    (index + branchesLen t.data.length) (index + branchesLen t.data.length)
    (t.nodes.set (index + branchesLen t.data.length) (t.hash.Hash [newData]))
    (by omega) (by omega) (Nat.le_refl _) (Or.inr (by rw [List.length_set]; omega))
  rw [List.length_set] at e2
  have hU : UpdateLeaf t index newData =
      ({ t with data := t.data.set index newData, nodes := r }, none) := by
    unfold UpdateLeaf
    rw [if_neg (by omega)]
    simp only [nodes_length_half hw, setAt_ok hpos, e1]
  -- positions on the strict ancestor walk lie in 1 .. b-1
  have hwalk : ∀ j, 1 ≤ j → j ≤ ceilLog2 t.data.length →
      1 ≤ (index + branchesLen t.data.length) / 2 ^ j ∧
      (index + branchesLen t.data.length) / 2 ^ j < branchesLen t.data.length := by
    intro j hj1 hj2
    have h1 := one_le_div_two_pow (p := index + branchesLen t.data.length)
      (k := ceilLog2 t.data.length) (by omega) hj2
    have h2 := div_two_pow_le_half (index + branchesLen t.data.length) hj1
    omega
  have hframe : ∀ p, (∀ j, 1 ≤ j → j ≤ ceilLog2 t.data.length →
      p ≠ (index + branchesLen t.data.length) / 2 ^ j) →
      p ≠ index + branchesLen t.data.length → r.getD p [] = t.nodes.getD p [] := by
    intro p h1 h2
    rw [e3 p h1, getD_set, if_neg (by omega)]
  have hhigh : ∀ p, branchesLen t.data.length ≤ p → ∀ j, 1 ≤ j → j ≤ ceilLog2 t.data.length →
      p ≠ (index + branchesLen t.data.length) / 2 ^ j := by
    intro p hp j hj1 hj2
    have := (hwalk j hj1 hj2).2
    omega
  rw [hU]
  refine ⟨rfl, rfl, rfl, e2, ?_, ?_⟩
  · intro p hp
    exact hframe p (fun j _ hj2 => hp j hj2) (by simpa using hp 0 (Nat.zero_le _))
  · refine ⟨?_, ?_, ?_, ?_, ?_, ?_⟩ <;> dsimp only <;> try simp only [List.length_set]
    · exact hw.nonempty
    · omega
    · have h0 : ∀ j, 1 ≤ j → j ≤ ceilLog2 t.data.length →
          0 ≠ (index + branchesLen t.data.length) / 2 ^ j := by
        intro j hj1 hj2
        have := (hwalk j hj1 hj2).1
        omega
      rw [hframe 0 h0 (by omega), hw.unused]
    · intro j hj
      rw [e3 _ (hhigh _ (by omega)), getD_set, getD_set_data _ _ _ _ hi]
      by_cases hij : index = j
      · subst hij
        rw [if_pos ⟨by omega, hpos⟩, if_pos rfl]
      · rw [if_neg (by omega), if_neg hij, hw.leaves j hj]
    · intro p hp1 hp2
      rw [hframe p (hhigh p (by omega)) (by omega), hw.padding p hp1 hp2]
    · intro x hx1 hx2
      by_cases hon : ∃ j, 1 ≤ j ∧ j ≤ ceilLog2 t.data.length ∧
          x = (index + branchesLen t.data.length) / 2 ^ j
      · obtain ⟨j, hj1, hj2, rfl⟩ := hon
        exact e4 j hj1 hj2
      · have hx : ∀ j, 1 ≤ j → j ≤ ceilLog2 t.data.length →
            x ≠ (index + branchesLen t.data.length) / 2 ^ j :=
          fun j hj1 hj2 hxe => hon ⟨j, hj1, hj2, hxe⟩
        have hchild : ∀ c, c / 2 = x → (∀ j, 1 ≤ j → j ≤ ceilLog2 t.data.length →
            c ≠ (index + branchesLen t.data.length) / 2 ^ j) ∧
            c ≠ index + branchesLen t.data.length := by
          intro c hc
          constructor
          · intro j hj1 hj2 hce
            rcases Nat.lt_or_ge j (ceilLog2 t.data.length) with hlt | hge
            · apply hx (j + 1) (by omega) (by omega)
              rw [Nat.pow_succ, ← Nat.div_div_eq_div_mul, ← hce, hc]
            · have hjk : j = ceilLog2 t.data.length := by omega
              have hlt : (index + branchesLen t.data.length) / 2 ^ j < 2 := by
                rw [hjk]
                apply (Nat.div_lt_iff_lt_mul (Nat.pow_pos (by decide))).mpr
                omega
              omega
          · intro hce
            have hk1 : 1 ≤ ceilLog2 t.data.length := by
              rcases Nat.eq_zero_or_pos (ceilLog2 t.data.length) with h0 | h0
              · rw [h0] at hbd; omega
              · exact h0
            apply hx 1 (Nat.le_refl 1) hk1
            rw [← hce, Nat.pow_one, hc]
        rw [hframe x hx (by omega), hframe (2 * x) (hchild _ (by omega)).1 (hchild _ (by omega)).2,
          hframe (2 * x + 1) (hchild _ (by omega)).1 (hchild _ (by omega)).2]
        exact hw.inner x hx1 hx2

theorem wellFormed_nodes_unique {t1 t2 : MerkleTree} (h1 : WellFormed t1) (h2 : WellFormed t2)
    (hd : t1.data = t2.data) (hh : t1.hash = t2.hash) : t1.nodes = t2.nodes := by
  have hl : t1.nodes.length = t2.nodes.length := by rw [h1.len, h2.len, hd]
  have hb := le_branchesLen t1.data.length
  have key : ∀ dist i, i < 2 * branchesLen t1.data.length →
      2 * branchesLen t1.data.length - i ≤ dist → t1.nodes.getD i [] = t2.nodes.getD i [] := by
    intro dist
    induction dist with
    | zero => intro i hi hdist; omega
    | succ dist ih =>
      intro i hi hdist
      rcases Nat.eq_zero_or_pos i with h0 | hpos
      · subst h0; rw [h1.unused, h2.unused]
      · rcases Nat.lt_or_ge i (branchesLen t1.data.length) with hlt | hge
        · rw [h1.inner i hpos hlt, h2.inner i hpos (by rw [← hd]; exact hlt),
            ih (2 * i) (by omega) (by omega), ih (2 * i + 1) (by omega) (by omega), hh]
        · rcases Nat.lt_or_ge i (branchesLen t1.data.length + t1.data.length) with hl2 | hg2
          · have e1 := h1.leaves (i - branchesLen t1.data.length) (by omega)
            have e2 := h2.leaves (i - branchesLen t1.data.length) (by rw [← hd]; omega)
            rw [← hd] at e2
            have : branchesLen t1.data.length + (i - branchesLen t1.data.length) = i := by omega
            rw [this] at e1 e2
            rw [e1, e2, hh]
          · rw [h1.padding i hg2 hi, h2.padding i (by rw [← hd]; exact hg2)
              (by rw [← hd]; exact hi), hh]
  apply ext_getD hl
  intro i hi
  exact key _ i (by rw [← h1.len]; exact hi) (Nat.le_refl _)
/-! ## The root as a recursive Merkle root -/

theorem merkle_singleton (hash : HashType) (x : Bytes) : merkle hash 0 [x] = x := rfl

theorem merkle_append (hash : HashType) (k : Nat) (l r : List Bytes) (hl : l.length = 2 ^ k) :
    merkle hash (k + 1) (l ++ r) = hash.Hash [merkle hash k l, merkle hash k r] := by
  simp only [merkle]
  rw [← hl, List.take_left, List.drop_left]

theorem getD_drop_take (nodes : List Bytes) (a c i : Nat) (hi : i < c) :
    ((nodes.drop a).take c).getD i [] = nodes.getD (a + i) [] := by
  simp only [List.getD_eq_getElem?_getD, List.getElem?_take, List.getElem?_drop, if_pos hi]

theorem node_eq_merkle (hash : HashType) (nodes : List Bytes) (m : Nat)
    (hin : ∀ i, 1 ≤ i → i < 2 ^ m →
      nodes.getD i [] = hash.Hash [nodes.getD (2 * i) [], nodes.getD (2 * i + 1) []]) :
    ∀ (h j p : Nat), j + h = m → 2 ^ j ≤ p → p < 2 ^ (j + 1) →
      nodes.getD p [] = merkle hash h ((nodes.drop (p * 2 ^ h)).take (2 ^ h)) := by
  intro h
  induction h with
  | zero =>
    intro j p _ _ _
    simp only [merkle, Nat.pow_zero, Nat.mul_one]
    rw [getD_drop_take _ _ _ _ (by omega), Nat.add_zero]
  | succ h ih =>
    intro j p hj h1 h2
    have hk : 1 ≤ 2 ^ j := Nat.pow_pos (by decide)
    have hh : 1 ≤ 2 ^ h := Nat.pow_pos (by decide)
    have hp2 : 2 ^ (j + 1) = 2 * 2 ^ j := by rw [Nat.pow_succ]; omega
    have hp3 : 2 ^ (j + 1 + 1) = 2 * 2 ^ (j + 1) := by rw [Nat.pow_succ]; omega
    have hh2 : 2 ^ (h + 1) = 2 * 2 ^ h := by rw [Nat.pow_succ]; omega
    have hjm : 2 ^ (j + 1) ≤ 2 ^ m := Nat.pow_le_pow_right (by decide) (by omega)
    rw [hin p (by omega) (by omega), ih (j + 1) (2 * p) (by omega) (by omega) (by omega),
      ih (j + 1) (2 * p + 1) (by omega) (by omega) (by omega)]
    simp only [merkle]
    have e1 : 2 * p * 2 ^ h = p * 2 ^ (h + 1) := by rw [hh2]; ring
    have e2 : (2 * p + 1) * 2 ^ h = p * 2 ^ (h + 1) + 2 ^ h := by rw [hh2]; ring
    rw [e1, e2]
    congr 2
    · rw [List.take_take, Nat.min_eq_left (by omega)]
    · congr 1
      rw [List.drop_take, List.drop_drop]
      congr 2
      omega

theorem root_eq_merkle {t : MerkleTree} (hw : WellFormed t) :
    t.nodes.getD 1 [] = merkle t.hash (ceilLog2 t.data.length)
      ((t.nodes.drop (branchesLen t.data.length)).take (branchesLen t.data.length)) := by
  have := node_eq_merkle t.hash t.nodes (ceilLog2 t.data.length) hw.inner
    (ceilLog2 t.data.length) 0 1 (by omega) (by simp) (by simp)
  rw [Nat.one_mul] at this
  exact this

theorem leafRow_eq_paddedDigests {t : MerkleTree} (hw : WellFormed t) :
    (t.nodes.drop (branchesLen t.data.length)).take (branchesLen t.data.length)
      = paddedDigests t.hash t.data := by
  have hb := le_branchesLen t.data.length
  apply ext_getD
  · simp only [paddedDigests, List.length_take, List.length_drop, List.length_append,
      List.length_map, List.length_replicate, hw.len]
    omega
  · intro i hi
    have hi2 : i < branchesLen t.data.length := by
      simp only [List.length_take, List.length_drop, hw.len] at hi; omega
    rw [getD_drop_take _ _ _ _ hi2]
    simp only [paddedDigests, List.getD_eq_getElem?_getD]
    rcases Nat.lt_or_ge i t.data.length with hlt | hge
    · rw [List.getElem?_append_left (by simpa using hlt), ← List.getD_eq_getElem?_getD,
        hw.leaves i hlt]
      simp [List.getElem?_map, List.getElem?_eq_getElem hlt, List.getD_eq_getElem?_getD]
    · rw [List.getElem?_append_right (by simpa using hge), ← List.getD_eq_getElem?_getD,
        hw.padding _ (by omega) (by omega)]
      simp only [List.length_map, List.getElem?_replicate]
      rw [if_pos (by omega)]
      rfl

theorem merkle_injective {hash : HashType} (hc : CollisionFree hash) :
    ∀ (k : Nat) (l1 l2 : List Bytes), l1.length = 2 ^ k → l2.length = 2 ^ k →
      merkle hash k l1 = merkle hash k l2 → l1 = l2 := by
  intro k
  induction k with
  | zero =>
    intro l1 l2 h1 h2 he
    apply ext_getD (by rw [h1, h2])
    intro i hi
    have : i = 0 := by rw [h1] at hi; omega
    subst this
    exact he
  | succ k ih =>
    intro l1 l2 h1 h2 he
    have hh2 : 2 ^ (k + 1) = 2 * 2 ^ k := by rw [Nat.pow_succ]; omega
    simp only [merkle] at he
    have hl := hc _ _ he
    simp only [List.cons.injEq, and_true] at hl
    have ht := ih _ _ (by rw [List.length_take]; omega) (by rw [List.length_take]; omega) hl.1
    have hd := ih _ _ (by rw [List.length_drop]; omega) (by rw [List.length_drop]; omega) hl.2
    rw [← List.take_append_drop (2 ^ k) l1, ← List.take_append_drop (2 ^ k) l2, ht, hd]

theorem root_ne_of_leaf_ne {t1 t2 : MerkleTree} (h1 : WellFormed t1) (h2 : WellFormed t2)
    (hh : t1.hash = t2.hash) (hc : CollisionFree t1.hash)
    (hl : t1.data.length = t2.data.length) {i : Nat} (hi : i < t1.data.length)
    (hne : t1.data.getD i [] ≠ t2.data.getD i []) :
    t1.nodes.getD 1 [] ≠ t2.nodes.getD 1 [] := by
  intro he
  have hb := le_branchesLen t1.data.length
  rw [root_eq_merkle h1, root_eq_merkle h2, ← hh, ← hl] at he
  have hrow := merkle_injective hc _ _ _
    (by simp only [List.length_take, List.length_drop, h1.len]
        show min _ _ = branchesLen _; omega)
    (by simp only [List.length_take, List.length_drop, h2.len, ← hl]
        show min _ _ = branchesLen _; omega) he
  have hg := congrArg (fun l => l.getD i []) hrow
  simp only at hg
  rw [getD_drop_take _ _ _ _ (by omega), getD_drop_take _ _ _ _ (by omega), h1.leaves i hi] at hg
  have := h2.leaves i (by omega)
  rw [← hl, ← hh] at this
  rw [this] at hg
  have := hc _ _ hg
  simp only [List.cons.injEq, and_true] at this
  exact hne this
/-! ## A collision-free hash provider -/

theorem encodeArg_cancel : ∀ (a a1 r r1 : Bytes),
    encodeArg a ++ r = encodeArg a1 ++ r1 → a = a1 ∧ r = r1 := by
  intro a
  induction a with
  | nil =>
    intro a1 r r1 h
    cases a1 with
    | nil => simpa [encodeArg] using h
    | cons b bs => simp [encodeArg] at h
  | cons b bs ih =>
    intro a1 r r1 h
    cases a1 with
    | nil => simp [encodeArg] at h
    | cons b1 bs1 =>
      simp only [encodeArg, List.flatMap_cons, List.cons_append, List.nil_append,
        List.append_assoc, List.cons.injEq, true_and] at h
      have := ih bs1 r r1 (by simpa [encodeArg] using h.2)
      exact ⟨by rw [h.1, this.1], this.2⟩

theorem encodeHash_collisionFree : CollisionFree encodeHash := by
  intro xs
  induction xs with
  | nil =>
    intro ys h
    cases ys with
    | nil => rfl
    | cons y ys => simp [encodeHash, encodeArg] at h
  | cons x xs ih =>
    intro ys h
    cases ys with
    | nil => simp [encodeHash, encodeArg] at h
    | cons y ys =>
      have h1 : encodeArg x ++ encodeHash.Hash xs = encodeArg y ++ encodeHash.Hash ys := by
        simpa [encodeHash] using h
      obtain ⟨e1, e2⟩ := encodeArg_cancel _ _ _ _ h1
      rw [e1, ih ys e2]
/-! ## The verifier against the specification's candidate -/

theorem proofHashLoop_congr (hash : HashType) : ∀ (hs : List Bytes) (i j : Nat) (acc : Bytes),
    i % 2 ^ hs.length = j % 2 ^ hs.length →
    proofHashLoop hash hs i acc = proofHashLoop hash hs j acc := by
  intro hs
  induction hs with
  | nil => intro i j acc _; rfl
  | cons s rest ih =>
    intro i j acc h
    simp only [List.length_cons] at h
    rw [Nat.pow_succ, Nat.mul_comm, Nat.mod_mul, Nat.mod_mul] at h
    have h2 : i % 2 = j % 2 := by omega
    have h3 : i / 2 % 2 ^ rest.length = j / 2 % 2 ^ rest.length := by omega
    simp only [proofHashLoop, h2]
    exact ih _ _ _ h3

theorem foldl_candidateStep (hash : HashType) : ∀ (hs : List Bytes) (i : Nat) (acc : Bytes),
    (hs.foldl (candidateStep hash) (acc, i)).1 = proofHashLoop hash hs i acc := by
  intro hs
  induction hs with
  | nil => intro i acc; rfl
  | cons s rest ih =>
    intro i acc
    simp only [List.foldl_cons, candidateStep, proofHashLoop]
    exact ih _ _

theorem uint64_start_mod (index len : Nat) (hidx : index < 2 ^ 64) :
    ((index % 2 ^ 64 + (1 <<< len) % 2 ^ 64) % 2 ^ 64) % 2 ^ len = (index + 2 ^ len) % 2 ^ len := by
  rw [Nat.one_shiftLeft, Nat.mod_eq_of_lt hidx]
  rcases Nat.lt_or_ge len 64 with hlt | hge
  · have hdvd : 2 ^ len ∣ 2 ^ 64 := Nat.pow_dvd_pow 2 (Nat.le_of_lt hlt)
    have hp : 2 ^ len < 2 ^ 64 := Nat.pow_lt_pow_right (by decide) hlt
    rw [Nat.mod_mod_of_dvd _ hdvd, Nat.mod_eq_of_lt hp]
  · have hdvd : 2 ^ 64 ∣ 2 ^ len := Nat.pow_dvd_pow 2 hge
    have hz : 2 ^ len % 2 ^ 64 = 0 := Nat.mod_eq_zero_of_dvd hdvd
    have hle : 2 ^ 64 ≤ 2 ^ len := Nat.pow_le_pow_right (by decide) hge
    rw [hz, Nat.add_zero, Nat.mod_eq_of_lt hidx, Nat.add_mod_right]

theorem proofHash_eq_candidate (data : Bytes) (proof : MerkleProof) (hash : HashType)
    (hidx : proof.Index < 2 ^ 64) : proofHash data proof hash = candidate hash data proof := by
  unfold proofHash candidate
  rw [foldl_candidateStep]
  exact proofHashLoop_congr hash _ _ _ _ (uint64_start_mod _ _ hidx)

theorem siblingPath_getElem? (nodes : List Bytes) : ∀ (k p i : Nat), i < k →
    (siblingPath nodes k p)[i]? = some (nodes.getD ((p / 2 ^ i) ^^^ 1) []) := by
  intro k
  induction k with
  | zero => intro p i hi; omega
  | succ k ih =>
    intro p i hi
    cases i with
    | zero => simp [siblingPath]
    | succ i =>
      simp only [siblingPath, List.getElem?_cons_succ]
      rw [ih (p / 2) i (by omega), div_two_pow_succ]

theorem proofHashLoop_injective {hash : HashType} (hc : CollisionFree hash) :
    ∀ (hs : List Bytes) (i : Nat) (a b : Bytes),
      proofHashLoop hash hs i a = proofHashLoop hash hs i b → a = b := by
  intro hs
  induction hs with
  | nil => intro i a b h; exact h
  | cons s rest ih =>
    intro i a b h
    simp only [proofHashLoop] at h
    have h1 := ih _ _ _ h
    by_cases he : i % 2 = 0
    · rw [if_pos he, if_pos he] at h1
      have := hc _ _ h1
      simp only [List.cons.injEq, and_true] at this
      exact this
    · rw [if_neg he, if_neg he] at h1
      have := hc _ _ h1
      simp only [List.cons.injEq, true_and, and_true] at this
      exact this

/-! ## The loops of `BLAKE2b.Hash` -/

theorem copyLoop_spec : ∀ (data : List Bytes) (curOffset : Nat) (concatData : Bytes),
    curOffset + data.flatten.length = concatData.length →
    BLAKE2b.copyLoop data curOffset concatData =
      .ok (concatData.take curOffset ++ data.flatten) := by
  intro data
  induction data with
  | nil =>
    intro off dst h
    simp only [List.flatten_nil, List.length_nil, Nat.add_zero] at h
    simp only [BLAKE2b.copyLoop, List.flatten_nil, List.append_nil]
    rw [h, List.take_length]
  | cons d ds ih =>
    intro off dst h
    simp only [List.flatten_cons, List.length_append] at h
    have h1 : ¬ dst.length < off := by omega
    have hmin : min (dst.length - off) d.length = d.length := by omega
    have htake : d.take (dst.length - off) = d := List.take_of_length_le (by omega)
    have hoff : min off dst.length = off := by omega
    have hl : (dst.take off ++ d).length = off + d.length := by
      simp only [List.length_append, List.length_take]; omega
    have hl2 : off + d.length + ds.flatten.length
        = (dst.take off ++ d ++ dst.drop (off + d.length)).length := by
      simp only [List.length_append, List.length_take, List.length_drop]; omega
    simp only [BLAKE2b.copyLoop, copyAt, if_neg h1, bind, Except.bind, hmin, htake]
    rw [ih (off + d.length) _ hl2, List.take_left' hl, List.flatten_cons, List.append_assoc]

theorem concatDataLen_spec : ∀ (data : List Bytes) (acc : Nat),
    BLAKE2b.concatDataLen data acc = acc + data.flatten.length := by
  intro data
  induction data with
  | nil => intro acc; rfl
  | cons d ds ih =>
    intro acc
    simp only [BLAKE2b.concatDataLen, ih, List.flatten_cons, List.length_append]
    omega

theorem BLAKE2b_Hash_spec (sum256 : Bytes → HashArray) (data : List Bytes) :
    BLAKE2b.Hash sum256 data = .ok (sum256 data.flatten).val := by
  unfold BLAKE2b.Hash
  by_cases h1 : data.length = 1
  · rw [if_pos h1]
    obtain ⟨d, rfl⟩ := List.length_eq_one.mp h1
    simp [getAt, bind, Except.bind]
  · rw [if_neg h1]
    simp only [bind, Except.bind]
    rw [copyLoop_spec data 0 _ (by rw [List.length_replicate, concatDataLen_spec])]
    simp

theorem dataIndexFrom_not_mem (input : Bytes) : ∀ (data : List Bytes) (i : Nat), input ∉ data →
    dataIndexFrom input data i = .error (.error "data not found") := by
  intro data
  induction data with
  | nil => intro i _; rfl
  | cons d ds ih =>
    intro i h
    have h1 : ¬ d = input := fun e => h (by rw [e]; exact List.mem_cons_self _ _)
    have h2 : input ∉ ds := fun e => h (List.mem_cons_of_mem _ e)
    simp only [dataIndexFrom, if_neg h1]
    exact ih (i + 1) h2

theorem getElem?_eq_of_getD {xs ys : List Bytes} (hl : xs.length = ys.length) {p : Nat}
    (h : xs.getD p [] = ys.getD p []) : xs[p]? = ys[p]? := by
  rcases Nat.lt_or_ge p xs.length with hlt | hge
  · rw [getElem?_eq_some_getD hlt, getElem?_eq_some_getD (by omega), h]
  · rw [List.getElem?_eq_none hge, List.getElem?_eq_none (by omega)]

/-! ## Sequences of updates, index arithmetic of the verifier -/

theorem UpdateLeaf_wellFormed {t : MerkleTree} (hw : WellFormed t) (index : Nat)
    (newData : Bytes) :
    WellFormed (UpdateLeaf t index newData).1 ∧
    (UpdateLeaf t index newData).1.hash = t.hash ∧
    (UpdateLeaf t index newData).1.data.length = t.data.length ∧
    ((UpdateLeaf t index newData).2 = none ∨
      (UpdateLeaf t index newData).2 = some (.error "index out of bounds")) := by
  rcases Nat.lt_or_ge index t.data.length with hlt | hge
  · obtain ⟨u1, u2, u3, _, _, u6⟩ := UpdateLeaf_spec hw index hlt newData
    exact ⟨u6, u2, by rw [u3, List.length_set], Or.inl u1⟩
  · have hU : UpdateLeaf t index newData = (t, some (.error "index out of bounds")) := by
      unfold UpdateLeaf
      rw [if_pos hge]
    rw [hU]
    exact ⟨hw, rfl, rfl, Or.inr rfl⟩

theorem runUpdates_wellFormed : ∀ (ops : List (Nat × Bytes)) (t : MerkleTree), WellFormed t →
    WellFormed (runUpdates t ops).1 ∧ (runUpdates t ops).1.hash = t.hash ∧
    (runUpdates t ops).1.data.length = t.data.length ∧
    ∀ e, e ∈ (runUpdates t ops).2 → e = none ∨ e = some (.error "index out of bounds") := by
  intro ops
  induction ops with
  | nil => intro t hw; exact ⟨hw, rfl, rfl, fun e he => by simp [runUpdates] at he⟩
  | cons op rest ih =>
    intro t hw
    obtain ⟨index, newData⟩ := op
    obtain ⟨w1, w2, w3, w4⟩ := UpdateLeaf_wellFormed hw index newData
    obtain ⟨r1, r2, r3, r4⟩ := ih _ w1
    refine ⟨r1, by rw [← w2]; exact r2, by rw [← w3]; exact r3, ?_⟩
    intro e he
    simp only [runUpdates, List.mem_cons] at he
    rcases he with he | he
    · rw [he]; exact w4
    · exact r4 e he

theorem uint64_start_mod_low (index len : Nat) (hlen : len < 64) :
    ((index % 2 ^ 64 + (1 <<< len) % 2 ^ 64) % 2 ^ 64) % 2 ^ len = index % 2 ^ len := by
  have hdvd : 2 ^ len ∣ 2 ^ 64 := Nat.pow_dvd_pow 2 (Nat.le_of_lt hlen)
  have hp : 2 ^ len < 2 ^ 64 := Nat.pow_lt_pow_right (by decide) hlen
  rw [Nat.one_shiftLeft, Nat.mod_mod_of_dvd _ hdvd, Nat.mod_eq_of_lt hp, Nat.add_mod_right,
    Nat.mod_mod_of_dvd _ hdvd]

theorem concatHash_pair (a b : Bytes) : concatHash.Hash [a, b] = concatHash.Hash [a ++ b] := by
  simp [concatHash]

/-! ## The loops with a record of their slice accesses -/

theorem proofLoopTraced_erase (nodes : List Bytes) : ∀ (fuel i cur : Nat) (hashes : List Bytes),
    (proofLoopTraced nodes fuel i cur hashes).map Prod.fst = proofLoop nodes fuel i cur hashes := by
  intro fuel
  induction fuel with
  | zero =>
    intro i cur hashes
    unfold proofLoopTraced proofLoop
    by_cases h : i > 1
    · simp only [if_pos h]; rfl
    · simp only [if_neg h]; rfl
  | succ f ih =>
    intro i cur hashes
    unfold proofLoopTraced proofLoop
    by_cases h : i > 1
    · simp only [if_pos h, bind, Except.bind]
      cases hg : getAt nodes (i ^^^ 1) with
      | error e => rfl
      | ok sibling =>
        simp only []
        cases hs : setAt hashes cur sibling with
        | error e => rfl
        | ok hashes1 =>
          simp only []
          rw [← ih (i / 2) (cur + 1) hashes1]
          cases proofLoopTraced nodes f (i / 2) (cur + 1) hashes1 with
          | error e => rfl
          | ok r => rfl
    · simp only [if_neg h]; rfl

theorem GenerateMProofTraced_erase (t : MerkleTree) (d : Bytes) :
    (GenerateMProofTraced t d).map Prod.fst = GenerateMProof t d := by
  unfold GenerateMProofTraced GenerateMProof
  cases dataIndex t d with
  | error e => rfl
  | ok index =>
    simp only [bind, Except.bind]
    rw [← proofLoopTraced_erase]
    cases proofLoopTraced t.nodes (index + t.nodes.length / 2) (index + t.nodes.length / 2) 0
      (List.replicate (ceilLog2 t.data.length) []) with
    | error e => rfl
    | ok r => rfl

theorem proofLoopTraced_spec (nodes : List Bytes) : ∀ (k p fuel cur : Nat) (hashes : List Bytes),
    2 ^ k ≤ p → p < 2 ^ (k + 1) → p ≤ fuel → (k = 0 ∨ 2 ^ (k + 1) ≤ nodes.length) →
    cur + k ≤ hashes.length →
    ∃ hashes1, proofLoopTraced nodes fuel p cur hashes =
      .ok (hashes1, (List.range k).map (fun x => ((p / 2 ^ x) ^^^ 1, cur + x))) := by
  intro k
  induction k with
  | zero =>
    intro p fuel cur hashes h1 h2 _ _ _
    have hp : p = 1 := by omega
    subst hp
    refine ⟨hashes, ?_⟩
    unfold proofLoopTraced; simp
  | succ k ih =>
    intro p fuel cur hashes h1 h2 hf hn hc
    have hk : 1 ≤ 2 ^ k := Nat.pow_pos (by decide)
    have hp2 : 2 ^ (k + 1) = 2 * 2 ^ k := by rw [Nat.pow_succ]; omega
    have hp3 : 2 ^ (k + 1 + 1) = 2 * 2 ^ (k + 1) := by rw [Nat.pow_succ]; omega
    have hp : 1 < p := by omega
    have hlen : 2 ^ (k + 1 + 1) ≤ nodes.length := by omega
    have hx : p ^^^ 1 < nodes.length := Nat.lt_of_lt_of_le (xor_one_lt h2) hlen
    have hcur : cur < hashes.length := by omega
    obtain ⟨fuel1, rfl⟩ : ∃ f, fuel = f + 1 := ⟨fuel - 1, by omega⟩
    obtain ⟨r, e1⟩ := ih (p / 2) fuel1 (cur + 1)
      (hashes.set cur (nodes.getD (p ^^^ 1) [])) (by omega) (by omega) (by omega)
      (by omega) (by rw [List.length_set]; omega)
    have htr : (p ^^^ 1, cur) ::
        List.map (fun x => ((p / 2 / 2 ^ x) ^^^ 1, cur + 1 + x)) (List.range k) =
        List.map (fun x => ((p / 2 ^ x) ^^^ 1, cur + x)) (List.range (k + 1)) := by
      rw [List.range_succ_eq_map, List.map_cons, List.map_map]
      simp only [Nat.pow_zero, Nat.div_one, Nat.add_zero]
      congr 1
      apply List.map_congr_left
      intro x _
      simp only [Function.comp, Nat.succ_eq_add_one, div_two_pow_succ]
      congr 1
      omega
    refine ⟨r, ?_⟩
    unfold proofLoopTraced
    rw [if_pos hp]
    simp only [getAt_ok hx, setAt_ok hcur, bind, Except.bind, e1, htr]

theorem one_le_xor_one {p : Nat} (hp : 1 < p) : 1 ≤ p ^^^ 1 := by
  by_cases he : p % 2 = 0
  · rw [xor_one_even he]; omega
  · rw [xor_one_odd (by omega)]; omega

theorem updateLoopTraced_erase (hash : HashType) : ∀ (fuel p : Nat) (nodes : List Bytes),
    (updateLoopTraced hash fuel p nodes).1 = updateLoop hash fuel p nodes := by
  intro fuel
  induction fuel with
  | zero =>
    intro p nodes
    unfold updateLoopTraced updateLoop
    by_cases h : p > 1
    · simp only [if_pos h]
    · simp only [if_neg h]
  | succ f ih =>
    intro p nodes
    unfold updateLoopTraced updateLoop
    by_cases h : p > 1
    · simp only [if_pos h]
      cases getAt nodes p with
      | error e =>
        cases getAt nodes (p ^^^ 1) with
        | error e2 => rfl
        | ok sib => rfl
      | ok cur =>
        cases getAt nodes (p ^^^ 1) with
        | error e => rfl
        | ok sib =>
          simp only []
          cases setAt nodes (p / 2)
              (if p % 2 = 0 then hash.Hash [cur, sib] else hash.Hash [sib, cur]) with
          | error e => rfl
          | ok nodes1 => exact ih _ _
    · simp only [if_neg h]

theorem updateLoopTraced_bounds (hash : HashType) (K : Nat) :
    ∀ (fuel p : Nat) (nodes : List Bytes), p < 2 ^ (K + 1) →
      ∀ q, q ∈ (updateLoopTraced hash fuel p nodes).2 → 1 ≤ q ∧ q < 2 ^ (K + 1) := by
  intro fuel
  induction fuel with
  | zero =>
    intro p nodes _ q hq
    unfold updateLoopTraced at hq
    by_cases h : p > 1
    · simp [if_pos h] at hq
    · simp [if_neg h] at hq
  | succ f ih =>
    intro p nodes hp q hq
    unfold updateLoopTraced at hq
    by_cases h : p > 1
    · simp only [if_pos h] at hq
      have b1 : 1 ≤ p ∧ p < 2 ^ (K + 1) := ⟨by omega, hp⟩
      have b2 : 1 ≤ p ^^^ 1 ∧ p ^^^ 1 < 2 ^ (K + 1) := ⟨one_le_xor_one h, xor_one_lt hp⟩
      have b3 : 1 ≤ p / 2 ∧ p / 2 < 2 ^ (K + 1) := ⟨by omega, by omega⟩
      cases hg1 : getAt nodes p with
      | error e =>
        rw [hg1] at hq
        cases hg2 : getAt nodes (p ^^^ 1) with
        | error e2 =>
          rw [hg2] at hq
          simp only [List.mem_cons, List.mem_singleton, List.not_mem_nil, or_false] at hq
          rcases hq with rfl | rfl
          · exact b1
          · exact b2
        | ok sib =>
          rw [hg2] at hq
          simp only [List.mem_cons, List.mem_singleton, List.not_mem_nil, or_false] at hq
          rcases hq with rfl | rfl
          · exact b1
          · exact b2
      | ok cur =>
        cases hg2 : getAt nodes (p ^^^ 1) with
        | error e =>
          rw [hg1, hg2] at hq
          simp only [List.mem_cons, List.mem_singleton, List.not_mem_nil, or_false] at hq
          rcases hq with rfl | rfl
          · exact b1
          · exact b2
        | ok sib =>
          rw [hg1, hg2] at hq
          simp only [] at hq
          cases hs : setAt nodes (p / 2)
              (if p % 2 = 0 then hash.Hash [cur, sib] else hash.Hash [sib, cur]) with
          | error e =>
            rw [hs] at hq
            simp only [List.mem_cons, List.mem_singleton, List.not_mem_nil, or_false] at hq
            rcases hq with rfl | rfl | rfl
            · exact b1
            · exact b2
            · exact b3
          | ok nodes1 =>
            rw [hs] at hq
            simp only [List.mem_cons] at hq
            rcases hq with rfl | rfl | rfl | hq
            · exact b1
            · exact b2
            · exact b3
            · exact ih (p / 2) nodes1 b3.2 q hq
    · simp [if_neg h] at hq

theorem UpdateLeafTraced_erase (t : MerkleTree) (index : Nat) (newData : Bytes) :
    (UpdateLeafTraced t index newData).1 = UpdateLeaf t index newData := by
  unfold UpdateLeafTraced UpdateLeaf
  by_cases h : index ≥ t.data.length
  · simp only [if_pos h]
  · simp only [if_neg h]
    cases setAt t.nodes (index + t.nodes.length / 2) (t.hash.Hash [newData]) with
    | error e => rfl
    | ok nodes1 =>
      simp only [updateLoopTraced_erase]

theorem GenerateMProofTraced_spec {t : MerkleTree} (hw : WellFormed t) {d : Bytes}
    (hd : d ∈ t.data) :
    ∃ proof, GenerateMProof t d = .ok proof ∧ proof.Index < t.data.length ∧
      proof.Hashes = siblingPath t.nodes (ceilLog2 t.data.length)
        (proof.Index + branchesLen t.data.length) ∧
      GenerateMProofTraced t d = .ok (proof, (List.range (ceilLog2 t.data.length)).map
        (fun k => (((proof.Index + branchesLen t.data.length) / 2 ^ k) ^^^ 1, k))) := by
  obtain ⟨j, g1, _, _, g4⟩ := GenerateMProof_spec hw hd
  obtain ⟨j0, e1, e2, _, _⟩ := dataIndexFrom_spec d t.data 0 hd
  rw [Nat.zero_add] at e1
  have hb := le_branchesLen t.data.length
  have hbd : branchesLen t.data.length = 2 ^ ceilLog2 t.data.length := rfl
  have hp2 : 2 ^ (ceilLog2 t.data.length + 1) = 2 * 2 ^ ceilLog2 t.data.length := by
    rw [Nat.pow_succ]; omega
  obtain ⟨r, hr⟩ := proofLoopTraced_spec t.nodes (ceilLog2 t.data.length)
    (j0 + branchesLen t.data.length) (j0 + branchesLen t.data.length) 0
    (List.replicate (ceilLog2 t.data.length) []) (by omega) (by omega) (Nat.le_refl _)
    (Or.inr (by rw [hw.len]; omega)) (by rw [List.length_replicate]; omega)
  simp only [Nat.zero_add] at hr
  have hT : GenerateMProofTraced t d = .ok ({ Hashes := r, Index := j0 },
      (List.range (ceilLog2 t.data.length)).map
        (fun k => (((j0 + branchesLen t.data.length) / 2 ^ k) ^^^ 1, k))) := by
    simp only [GenerateMProofTraced, dataIndex, e1, bind, Except.bind, nodes_length_half hw, hr]
  have hE := GenerateMProofTraced_erase t d
  rw [hT, g4] at hE
  simp only [Except.map] at hE
  have hE2 := Except.ok.inj hE
  have hidx : j0 = j := congrArg MerkleProof.Index hE2
  have hhs : r = siblingPath t.nodes (ceilLog2 t.data.length) (j + branchesLen t.data.length) :=
    congrArg MerkleProof.Hashes hE2
  subst hidx
  subst hhs
  exact ⟨_, g4, g1, rfl, hT⟩

theorem UpdateLeafTraced_bounds {t : MerkleTree} (hw : WellFormed t) (index : Nat)
    (hi : index < t.data.length) (newData : Bytes) :
    ∀ q, q ∈ (UpdateLeafTraced t index newData).2 →
      1 ≤ q ∧ q < 2 * branchesLen t.data.length := by
  have hb := le_branchesLen t.data.length
  have hbd : branchesLen t.data.length = 2 ^ ceilLog2 t.data.length := rfl
  have hp2 : 2 ^ (ceilLog2 t.data.length + 1) = 2 * 2 ^ ceilLog2 t.data.length := by
    rw [Nat.pow_succ]; omega
  have hlen := hw.len
  have hpos : index + branchesLen t.data.length < t.nodes.length := by omega
  intro q hq
  unfold UpdateLeafTraced at hq
  rw [if_neg (by omega)] at hq
  simp only [nodes_length_half hw, setAt_ok hpos, List.mem_cons] at hq
  rcases hq with rfl | hq
  · omega
  · have := updateLoopTraced_bounds t.hash (ceilLog2 t.data.length) _ _ _ (by omega) q hq
    omega

/-! ## The claims -/

/-- Claim C1. Round trip: for every leaf sequence (shorter than `2 ^ 63`, the range of a Go
slice length), every hash provider and every leaf `d` of the sequence, `NewTree` returns a
tree, `GenerateMProof d` on it returns a proof, and `VerifyMProof` of `d`, that proof and
`MerkleRoot()` with the same hash provider returns `true` with a `nil` error. -/
theorem roundTrip_NewTree_GenerateMProof_VerifyMProof (data : List Bytes) (hash : HashType)
    (d : Bytes) (hd : d ∈ data) (hlen : data.length < 2 ^ 63) :
    ∃ t proof root, NewTree data (some hash) = .ok t ∧ GenerateMProof t d = .ok proof ∧
      MerkleRoot t = .ok root ∧ VerifyMProof d proof root hash = (true, none) := by
  obtain ⟨t, ht, hh, hdata, hw⟩ := NewTree_wellFormed data hash (List.ne_nil_of_mem hd)
  obtain ⟨proof, root, h1, h2, h3⟩ := roundTrip_of_wellFormed hw (d := d)
    (by rw [hdata]; exact hd) (by rw [hdata]; exact hlen)
  rw [hh] at h3
  exact ⟨t, proof, root, ht, h1, h2, h3⟩

theorem roundTrip_NewTree_GenerateMProof_VerifyMProof_witness :
    ([3] : Bytes) ∈ ([[1], [2], [3]] : List Bytes) ∧ ([[1], [2], [3]] : List Bytes).length < 2 ^ 63 ∧
    ∃ t proof root, NewTree [[1], [2], [3]] (some encodeHash) = .ok t ∧
      GenerateMProof t [3] = .ok proof ∧ MerkleRoot t = .ok root ∧
      VerifyMProof [3] proof root encodeHash = (true, none) :=
  ⟨by decide, by decide,
    roundTrip_NewTree_GenerateMProof_VerifyMProof [[1], [2], [3]] encodeHash [3]
      (by decide) (by decide)⟩

/-- Claim C2. `NewTree` returns the empty-input error exactly when the leaf sequence is
empty (whatever the hash provider), the missing-hash error exactly when the sequence is
non-empty and the hash provider is `nil`, and a tree exactly when the sequence is
non-empty and the hash provider is not `nil`. -/
theorem NewTree_error_iff (data : List Bytes) (hash : Option HashType) :
    (NewTree data hash =
        .error (.error "the merkle tree should contains at least 1 piece of input")
      ↔ data = []) ∧
    (NewTree data hash = .error (.error "please specify hash algo")
      ↔ data ≠ [] ∧ hash = none) ∧
    ((∃ t, NewTree data hash = .ok t) ↔ data ≠ [] ∧ hash ≠ none) := by
  cases data with
  | nil => simp [NewTree]
  | cons d ds =>
    cases hash with
    | none => simp [NewTree]
    | some h =>
      obtain ⟨t, ht, _⟩ := NewTree_wellFormed (d :: ds) h (by simp)
      simp [ht]

/-- Claim C3. For every non-empty leaf sequence of length `n` the tree built by `NewTree`
has a node slice of length `2 * branches`, where `branches` is a power of two, is at
least `n`, is at most every other power of two that is at least `n`, and is `1` when
`n = 1`; position `branches + j` holds `Hash(leaf j)` for every `j < n`, and every
position from `branches + n` up to `2 * branches - 1` holds `HashLength()` zero bytes. -/
theorem NewTree_layout (data : List Bytes) (hash : HashType) (hne : data ≠ []) :
    ∃ t, NewTree data (some hash) = .ok t ∧
      t.nodes.length = 2 * branchesLen data.length ∧
      (∃ k, branchesLen data.length = 2 ^ k) ∧
      data.length ≤ branchesLen data.length ∧
      (∀ k, data.length ≤ 2 ^ k → branchesLen data.length ≤ 2 ^ k) ∧
      (data.length = 1 → branchesLen data.length = 1) ∧
      (∀ j d, data[j]? = some d →
        t.nodes[branchesLen data.length + j]? = some (hash.Hash [d])) ∧
      (∀ p, branchesLen data.length + data.length ≤ p → p < 2 * branchesLen data.length →
        t.nodes[p]? = some (List.replicate hash.HashLength 0)) := by
  obtain ⟨t, ht, hh, hdata, hw⟩ := NewTree_wellFormed data hash hne
  have hb := le_branchesLen data.length
  refine ⟨t, ht, ?_, ⟨_, rfl⟩, hb, ?_, ?_, ?_, ?_⟩
  · rw [hw.len, hdata]
  · intro k hk
    exact Nat.pow_le_pow_right (by decide) (ceilLog2_le_of_le_two_pow hk)
  · intro h1
    rw [h1]; rfl
  · intro j d hj
    obtain ⟨hlt, hget⟩ := List.getElem?_eq_some_iff.mp hj
    have := hw.leaves j (by rw [hdata]; exact hlt)
    rw [hdata, hh] at this
    rw [getElem?_eq_some_getD (by rw [hw.len, hdata]; omega), this]
    simp [List.getD_eq_getElem?_getD, List.getElem?_eq_getElem hlt, hget]
  · intro p hp1 hp2
    have := hw.padding p (by rw [hdata]; exact hp1) (by rw [hdata]; exact hp2)
    rw [hh] at this
    rw [getElem?_eq_some_getD (by rw [hw.len, hdata]; omega), this]

theorem NewTree_layout_witness :
    ([[1], [2], [3]] : List Bytes) ≠ [] ∧
    ∃ t, NewTree [[1], [2], [3]] (some encodeHash) = .ok t ∧
      t.nodes.length = 2 * branchesLen ([[1], [2], [3]] : List Bytes).length ∧
      (∃ k, branchesLen ([[1], [2], [3]] : List Bytes).length = 2 ^ k) ∧
      ([[1], [2], [3]] : List Bytes).length ≤ branchesLen ([[1], [2], [3]] : List Bytes).length ∧
      (∀ k, ([[1], [2], [3]] : List Bytes).length ≤ 2 ^ k →
        branchesLen ([[1], [2], [3]] : List Bytes).length ≤ 2 ^ k) ∧
      (([[1], [2], [3]] : List Bytes).length = 1 →
        branchesLen ([[1], [2], [3]] : List Bytes).length = 1) ∧
      (∀ j d, ([[1], [2], [3]] : List Bytes)[j]? = some d →
        t.nodes[branchesLen ([[1], [2], [3]] : List Bytes).length + j]?
          = some (encodeHash.Hash [d])) ∧
      (∀ p, branchesLen ([[1], [2], [3]] : List Bytes).length
          + ([[1], [2], [3]] : List Bytes).length ≤ p →
        p < 2 * branchesLen ([[1], [2], [3]] : List Bytes).length →
        t.nodes[p]? = some (List.replicate encodeHash.HashLength 0)) :=
  ⟨by decide, NewTree_layout [[1], [2], [3]] encodeHash (by decide)⟩

/-- Claim C4. In every tree built by `NewTree` every internal position `i` with
`1 ≤ i < branches` holds the two-argument hash of the digests at `2 * i` and `2 * i + 1`,
in that order, and `MerkleRoot()` returns the digest at position `1`. -/
theorem NewTree_internal_nodes (data : List Bytes) (hash : HashType) (hne : data ≠ []) :
    ∃ t, NewTree data (some hash) = .ok t ∧
      (∀ i, 1 ≤ i → i < branchesLen data.length →
        ∃ left right, t.nodes[2 * i]? = some left ∧ t.nodes[2 * i + 1]? = some right ∧
          t.nodes[i]? = some (hash.Hash [left, right])) ∧
      ∃ root, MerkleRoot t = .ok root ∧ t.nodes[1]? = some root := by
  obtain ⟨t, ht, hh, hdata, hw⟩ := NewTree_wellFormed data hash hne
  have hl : t.nodes.length = 2 * branchesLen data.length := by rw [hw.len, hdata]
  have hbp := branchesLen_pos data.length
  refine ⟨t, ht, ?_, ⟨_, MerkleRoot_ok hw, getElem?_eq_some_getD (by omega)⟩⟩
  intro i hi1 hi2
  refine ⟨_, _, getElem?_eq_some_getD (by omega), getElem?_eq_some_getD (by omega), ?_⟩
  rw [getElem?_eq_some_getD (by omega), hw.inner i hi1 (by rw [hdata]; exact hi2), hh]

theorem NewTree_internal_nodes_witness :
    ([[1], [2], [3]] : List Bytes) ≠ [] ∧
    ∃ t, NewTree [[1], [2], [3]] (some encodeHash) = .ok t ∧
      (∀ i, 1 ≤ i → i < branchesLen ([[1], [2], [3]] : List Bytes).length →
        ∃ left right, t.nodes[2 * i]? = some left ∧ t.nodes[2 * i + 1]? = some right ∧
          t.nodes[i]? = some (encodeHash.Hash [left, right])) ∧
      ∃ root, MerkleRoot t = .ok root ∧ t.nodes[1]? = some root :=
  ⟨by decide, NewTree_internal_nodes [[1], [2], [3]] encodeHash (by decide)⟩

/-- Claim C5. For every non-empty leaf sequence `MerkleRoot()` of the built tree is the
recursively defined Merkle root (`merkle`) of the leaf digests padded on the right with
zero digests to `branches` entries; for three leaves `a`, `b`, `c` it is
`Hash(Hash(Hash(a), Hash(b)), Hash(Hash(c), zeroDigest))`. -/
theorem MerkleRoot_eq_merkle (data : List Bytes) (hash : HashType) (hne : data ≠ []) :
    ∃ t root, NewTree data (some hash) = .ok t ∧ MerkleRoot t = .ok root ∧
      (paddedDigests hash data).length = branchesLen data.length ∧
      root = merkle hash (ceilLog2 data.length) (paddedDigests hash data) ∧
      (∀ a b c, data = [a, b, c] →
        root = hash.Hash [hash.Hash [hash.Hash [a], hash.Hash [b]],
          hash.Hash [hash.Hash [c], List.replicate hash.HashLength 0]]) := by
  obtain ⟨t, ht, hh, hdata, hw⟩ := NewTree_wellFormed data hash hne
  have hb := le_branchesLen data.length
  have hroot : t.nodes.getD 1 [] = merkle hash (ceilLog2 data.length) (paddedDigests hash data) := by
    rw [root_eq_merkle hw, leafRow_eq_paddedDigests hw, hh, hdata]
  refine ⟨t, _, ht, MerkleRoot_ok hw, ?_, hroot, ?_⟩
  · simp only [paddedDigests, List.length_append, List.length_map, List.length_replicate]
    omega
  · intro a b c habc
    rw [hroot, habc]
    rfl

theorem MerkleRoot_eq_merkle_witness :
    ([[1], [2], [3]] : List Bytes) ≠ [] ∧
    ∃ t root, NewTree [[1], [2], [3]] (some encodeHash) = .ok t ∧ MerkleRoot t = .ok root ∧
      (paddedDigests encodeHash [[1], [2], [3]]).length
        = branchesLen ([[1], [2], [3]] : List Bytes).length ∧
      root = merkle encodeHash (ceilLog2 ([[1], [2], [3]] : List Bytes).length)
        (paddedDigests encodeHash [[1], [2], [3]]) ∧
      (∀ a b c, ([[1], [2], [3]] : List Bytes) = [a, b, c] →
        root = encodeHash.Hash [encodeHash.Hash [encodeHash.Hash [a], encodeHash.Hash [b]],
          encodeHash.Hash [encodeHash.Hash [c], List.replicate encodeHash.HashLength 0]]) :=
  ⟨by decide, MerkleRoot_eq_merkle [[1], [2], [3]] encodeHash (by decide)⟩

/-- Claim C6. `UpdateLeaf` agrees with rebuilding: on the tree built by `NewTree` from
`data`, for every `index` below the leaf count and every `newData`, `UpdateLeaf` returns
`nil` and leaves the tree with the node slice, the root and the stored leaves of the tree
that `NewTree` builds from `data` with element `index` replaced by `newData`. -/
theorem UpdateLeaf_eq_rebuild (data : List Bytes) (hash : HashType) (index : Nat)
    (newData : Bytes) (hi : index < data.length) :
    ∃ t rebuilt, NewTree data (some hash) = .ok t ∧
      NewTree (data.set index newData) (some hash) = .ok rebuilt ∧
      (UpdateLeaf t index newData).2 = none ∧
      (UpdateLeaf t index newData).1.nodes = rebuilt.nodes ∧
      (UpdateLeaf t index newData).1.data = rebuilt.data ∧
      MerkleRoot (UpdateLeaf t index newData).1 = MerkleRoot rebuilt := by
  have hne : data ≠ [] := List.ne_nil_of_length_pos (by omega)
  obtain ⟨t, ht, hh, hdata, hw⟩ := NewTree_wellFormed data hash hne
  obtain ⟨r, hr, rh, rdata, rw1⟩ := NewTree_wellFormed (data.set index newData) hash
    (by intro h; have := congrArg List.length h; simp only [List.length_set, List.length_nil] at this; omega)
  obtain ⟨u1, u2, u3, _, _, u6⟩ := UpdateLeaf_spec hw index
    (by rw [hdata]; exact hi) newData
  have hd : (UpdateLeaf t index newData).1.data = r.data := by rw [u3, hdata, rdata]
  have hn := wellFormed_nodes_unique u6 rw1 hd (by rw [u2, hh, rh])
  refine ⟨t, r, ht, hr, u1, hn, hd, ?_⟩
  simp only [MerkleRoot, hn]

theorem UpdateLeaf_eq_rebuild_witness :
    2 < ([[1], [2], [3]] : List Bytes).length ∧
    ∃ t rebuilt, NewTree [[1], [2], [3]] (some encodeHash) = .ok t ∧
      NewTree (([[1], [2], [3]] : List Bytes).set 2 [9]) (some encodeHash) = .ok rebuilt ∧
      (UpdateLeaf t 2 [9]).2 = none ∧
      (UpdateLeaf t 2 [9]).1.nodes = rebuilt.nodes ∧
      (UpdateLeaf t 2 [9]).1.data = rebuilt.data ∧
      MerkleRoot (UpdateLeaf t 2 [9]).1 = MerkleRoot rebuilt :=
  ⟨by decide, UpdateLeaf_eq_rebuild [[1], [2], [3]] encodeHash 2 [9] (by decide)⟩

/-- Claim C7. `UpdateLeaf` returns the error "index out of bounds" exactly when the index
is at least the leaf count, and then the tree (leaves, nodes, root) is the one before the
call; on the tree built by `NewTree` it returns `nil` for every index below the leaf
count. -/
theorem UpdateLeaf_out_of_bounds (data : List Bytes) (hash : HashType) (index : Nat)
    (newData : Bytes) (hne : data ≠ []) :
    ∃ t, NewTree data (some hash) = .ok t ∧
      ((UpdateLeaf t index newData).2 = some (.error "index out of bounds")
        ↔ data.length ≤ index) ∧
      (data.length ≤ index → (UpdateLeaf t index newData).1 = t) ∧
      (index < data.length → (UpdateLeaf t index newData).2 = none) ∧
      ((∃ e, (UpdateLeaf t index newData).2 = some e) ↔ data.length ≤ index) := by
  obtain ⟨t, ht, hh, hdata, hw⟩ := NewTree_wellFormed data hash hne
  refine ⟨t, ht, ?_⟩
  rcases Nat.lt_or_ge index data.length with hlt | hge
  · obtain ⟨u1, _⟩ := UpdateLeaf_spec hw index (by rw [hdata]; exact hlt) newData
    rw [u1]
    simp only [reduceCtorEq, false_iff, exists_false]
    exact ⟨by omega, by omega, fun _ => trivial, by omega⟩
  · have hU : UpdateLeaf t index newData = (t, some (.error "index out of bounds")) := by
      unfold UpdateLeaf
      rw [if_pos (by rw [hdata]; exact hge)]
    rw [hU]
    exact ⟨⟨fun _ => hge, fun _ => rfl⟩, fun _ => rfl, by omega, ⟨fun _ => hge, fun _ => ⟨_, rfl⟩⟩⟩

theorem UpdateLeaf_out_of_bounds_witness :
    ([[1], [2], [3]] : List Bytes) ≠ [] ∧
    ∃ t, NewTree [[1], [2], [3]] (some encodeHash) = .ok t ∧
      ((UpdateLeaf t 3 [9]).2 = some (.error "index out of bounds")
        ↔ ([[1], [2], [3]] : List Bytes).length ≤ 3) ∧
      (([[1], [2], [3]] : List Bytes).length ≤ 3 → (UpdateLeaf t 3 [9]).1 = t) ∧
      (3 < ([[1], [2], [3]] : List Bytes).length → (UpdateLeaf t 3 [9]).2 = none) ∧
      ((∃ e, (UpdateLeaf t 3 [9]).2 = some e) ↔ ([[1], [2], [3]] : List Bytes).length ≤ 3) :=
  ⟨by decide, UpdateLeaf_out_of_bounds [[1], [2], [3]] encodeHash 3 [9] (by decide)⟩

/-- Claim C8. After `UpdateLeaf(index, newData)` on a tree built by `NewTree` from fewer
than `2 ^ 63` leaves (any index below the leaf count, any `newData`, also one equal to
another leaf), the call returned `nil`, `GenerateMProof(newData)` returns a proof, and
`VerifyMProof` of `newData`, that proof and the new `MerkleRoot()` with the same hash
provider returns `true` with a `nil` error. -/
theorem UpdateLeaf_then_roundTrip (data : List Bytes) (hash : HashType) (index : Nat)
    (newData : Bytes) (hi : index < data.length) (hlen : data.length < 2 ^ 63) :
    ∃ t proof root, NewTree data (some hash) = .ok t ∧
      (UpdateLeaf t index newData).2 = none ∧
      GenerateMProof (UpdateLeaf t index newData).1 newData = .ok proof ∧
      MerkleRoot (UpdateLeaf t index newData).1 = .ok root ∧
      VerifyMProof newData proof root hash = (true, none) := by
  have hne : data ≠ [] := List.ne_nil_of_length_pos (by omega)
  obtain ⟨t, ht, hh, hdata, hw⟩ := NewTree_wellFormed data hash hne
  obtain ⟨u1, u2, u3, _, _, u6⟩ := UpdateLeaf_spec hw index
    (by rw [hdata]; exact hi) newData
  obtain ⟨proof, root, h1, h2, h3⟩ := roundTrip_of_wellFormed u6 (d := newData)
    (by rw [u3, hdata]; exact List.mem_iff_getElem.mpr
          ⟨index, by rw [List.length_set]; exact hi, by simp⟩)
    (by rw [u3, List.length_set, hdata]; exact hlen)
  rw [u2, hh] at h3
  exact ⟨t, proof, root, ht, u1, h1, h2, h3⟩

theorem UpdateLeaf_then_roundTrip_witness :
    2 < ([[1], [2], [3]] : List Bytes).length ∧ ([[1], [2], [3]] : List Bytes).length < 2 ^ 63 ∧
    ∃ t proof root, NewTree [[1], [2], [3]] (some encodeHash) = .ok t ∧
      (UpdateLeaf t 2 [1]).2 = none ∧
      GenerateMProof (UpdateLeaf t 2 [1]).1 [1] = .ok proof ∧
      MerkleRoot (UpdateLeaf t 2 [1]).1 = .ok root ∧
      VerifyMProof [1] proof root encodeHash = (true, none) :=
  ⟨by decide, by decide,
    UpdateLeaf_then_roundTrip [[1], [2], [3]] encodeHash 2 [1] (by decide) (by decide)⟩

/-- Claim C9, as stated, fails: on the tree built from the leaves `[1]`, `[2]`, `[3]`,
`UpdateLeaf(2, [3])` (the value already stored at index 2) returns `nil` and
`MerkleRoot()` is the same as before the update. -/
theorem UpdateLeaf_same_value_keeps_root :
    ∃ t, NewTree [[1], [2], [3]] (some encodeHash) = .ok t ∧
      (UpdateLeaf t 2 [3]).2 = none ∧
      MerkleRoot (UpdateLeaf t 2 [3]).1 = MerkleRoot t := by
  obtain ⟨t, ht, hh, hdata, hw⟩ := NewTree_wellFormed [[1], [2], [3]] encodeHash (by decide)
  obtain ⟨u1, u2, u3, _, _, u6⟩ := UpdateLeaf_spec hw 2
    (by rw [hdata]; decide) [3]
  have hd : (UpdateLeaf t 2 [3]).1.data = t.data := by rw [u3, hdata]; rfl
  have hn := wellFormed_nodes_unique u6 hw hd u2
  exact ⟨t, ht, u1, by simp only [MerkleRoot, hn]⟩

/-- Claim C9, amended. On a tree built by `NewTree` with a hash provider that never
returns the same digest for two different argument sequences, for every index below the
leaf count and every `newData` different from the leaf stored at that index,
`UpdateLeaf` returns `nil` and `MerkleRoot()` afterwards differs from the root before. -/
theorem UpdateLeaf_changes_root (data : List Bytes) (hash : HashType) (index : Nat)
    (old newData : Bytes) (hold : data[index]? = some old) (hne : newData ≠ old)
    (hc : CollisionFree hash) :
    ∃ t rootBefore rootAfter, NewTree data (some hash) = .ok t ∧
      MerkleRoot t = .ok rootBefore ∧
      (UpdateLeaf t index newData).2 = none ∧
      MerkleRoot (UpdateLeaf t index newData).1 = .ok rootAfter ∧
      rootAfter ≠ rootBefore := by
  obtain ⟨hi, hget⟩ := List.getElem?_eq_some_iff.mp hold
  have hne0 : data ≠ [] := List.ne_nil_of_length_pos (by omega)
  obtain ⟨t, ht, hh, hdata, hw⟩ := NewTree_wellFormed data hash hne0
  obtain ⟨u1, u2, u3, _, _, u6⟩ := UpdateLeaf_spec hw index
    (by rw [hdata]; exact hi) newData
  refine ⟨t, _, _, ht, MerkleRoot_ok hw, u1, MerkleRoot_ok u6, ?_⟩
  apply root_ne_of_leaf_ne u6 hw u2 (by rw [u2, hh]; exact hc)
    (by rw [u3, List.length_set]) (i := index) (by rw [u3, List.length_set, hdata]; exact hi)
  rw [u3, hdata, getD_set_data _ _ _ _ hi, if_pos rfl]
  simp only [List.getD_eq_getElem?_getD, hold, Option.getD_some]
  exact hne

theorem UpdateLeaf_changes_root_witness :
    ([[1], [2], [3]] : List Bytes)[2]? = some [3] ∧ ([9] : Bytes) ≠ [3] ∧
    CollisionFree encodeHash ∧
    ∃ t rootBefore rootAfter, NewTree [[1], [2], [3]] (some encodeHash) = .ok t ∧
      MerkleRoot t = .ok rootBefore ∧
      (UpdateLeaf t 2 [9]).2 = none ∧
      MerkleRoot (UpdateLeaf t 2 [9]).1 = .ok rootAfter ∧
      rootAfter ≠ rootBefore :=
  ⟨by decide, by decide, encodeHash_collisionFree,
    UpdateLeaf_changes_root [[1], [2], [3]] encodeHash 2 [3] [9] (by decide) (by decide)
      encodeHash_collisionFree⟩

/-- Claim C10. On a tree built by `NewTree` from fewer than `2 ^ 63` leaves with a hash
provider that never returns the same digest for two different argument sequences, for
every index, the leaf value `old` stored there and every `newData` different from `old`:
the proof `GenerateMProof(old)` returned before the update does not verify `old` against
the root after `UpdateLeaf(index, newData)`: `VerifyMProof` returns `false` (with a `nil`
error). -/
theorem old_proof_fails_after_UpdateLeaf (data : List Bytes) (hash : HashType) (index : Nat)
    (old newData : Bytes) (hold : data[index]? = some old) (hne : newData ≠ old)
    (hc : CollisionFree hash) (hlen : data.length < 2 ^ 63) :
    ∃ t proof rootAfter, NewTree data (some hash) = .ok t ∧
      GenerateMProof t old = .ok proof ∧
      (UpdateLeaf t index newData).2 = none ∧
      MerkleRoot (UpdateLeaf t index newData).1 = .ok rootAfter ∧
      VerifyMProof old proof rootAfter hash = (false, none) := by
  obtain ⟨hi, hget⟩ := List.getElem?_eq_some_iff.mp hold
  have hne0 : data ≠ [] := List.ne_nil_of_length_pos (by omega)
  obtain ⟨t, ht, hh, hdata, hw⟩ := NewTree_wellFormed data hash hne0
  obtain ⟨u1, u2, u3, _, _, u6⟩ := UpdateLeaf_spec hw index
    (by rw [hdata]; exact hi) newData
  have hmem : old ∈ t.data := by
    rw [hdata]; exact List.mem_iff_getElem.mpr ⟨index, hi, hget⟩
  obtain ⟨j, g1, g2, _, g4⟩ := GenerateMProof_spec hw hmem
  have hph := proofHash_generated hw g1 (by rw [hdata]; exact hlen)
  rw [g2, hh] at hph
  have hroot : (UpdateLeaf t index newData).1.nodes.getD 1 [] ≠ t.nodes.getD 1 [] := by
    apply root_ne_of_leaf_ne u6 hw u2 (by rw [u2, hh]; exact hc)
      (by rw [u3, List.length_set]) (i := index) (by rw [u3, List.length_set, hdata]; exact hi)
    rw [u3, hdata, getD_set_data _ _ _ _ hi, if_pos rfl]
    simp only [List.getD_eq_getElem?_getD, hold, Option.getD_some]
    exact hne
  refine ⟨t, _, _, ht, g4, u1, MerkleRoot_ok u6, ?_⟩
  unfold VerifyMProof
  rw [hph, if_neg hroot]

theorem old_proof_fails_after_UpdateLeaf_witness :
    ([[1], [2], [3]] : List Bytes)[2]? = some [3] ∧ ([9] : Bytes) ≠ [3] ∧
    CollisionFree encodeHash ∧ ([[1], [2], [3]] : List Bytes).length < 2 ^ 63 ∧
    ∃ t proof rootAfter, NewTree [[1], [2], [3]] (some encodeHash) = .ok t ∧
      GenerateMProof t [3] = .ok proof ∧
      (UpdateLeaf t 2 [9]).2 = none ∧
      MerkleRoot (UpdateLeaf t 2 [9]).1 = .ok rootAfter ∧
      VerifyMProof [3] proof rootAfter encodeHash = (false, none) :=
  ⟨by decide, by decide, encodeHash_collisionFree, by decide,
    old_proof_fails_after_UpdateLeaf [[1], [2], [3]] encodeHash 2 [3] [9] (by decide)
      (by decide) encodeHash_collisionFree (by decide)⟩

/-- Claim C11. For every data, proof (with a `uint64` index), root and hash provider,
`VerifyMProof` returns `true` exactly when `root` is byte-equal to the candidate of the
specification (`candidate`: start from `Hash(data)` at position
`Index + 2 ^ len(Hashes)`, hash with the sibling on the right at an even position and on
the left at an odd one, halve the position), `false` otherwise, and the returned error is
always `nil`. -/
theorem VerifyMProof_iff_candidate (data : Bytes) (proof : MerkleProof) (root : Bytes)
    (hash : HashType) (hidx : proof.Index < 2 ^ 64) :
    ((VerifyMProof data proof root hash).1 = true ↔ root = candidate hash data proof) ∧
    ((VerifyMProof data proof root hash).1 = false ↔ root ≠ candidate hash data proof) ∧
    (VerifyMProof data proof root hash).2 = none := by
  unfold VerifyMProof
  rw [proofHash_eq_candidate data proof hash hidx]
  by_cases h : root = candidate hash data proof
  · simp [h]
  · simp [h]

theorem VerifyMProof_iff_candidate_witness :
    ({ Hashes := [[7], [8]], Index := 2 } : MerkleProof).Index < 2 ^ 64 ∧
    ((VerifyMProof [3] { Hashes := [[7], [8]], Index := 2 } [5] encodeHash).1 = true
      ↔ [5] = candidate encodeHash [3] { Hashes := [[7], [8]], Index := 2 }) ∧
    ((VerifyMProof [3] { Hashes := [[7], [8]], Index := 2 } [5] encodeHash).1 = false
      ↔ [5] ≠ candidate encodeHash [3] { Hashes := [[7], [8]], Index := 2 }) ∧
    (VerifyMProof [3] { Hashes := [[7], [8]], Index := 2 } [5] encodeHash).2 = none :=
  ⟨by decide, VerifyMProof_iff_candidate [3] { Hashes := [[7], [8]], Index := 2 } [5]
    encodeHash (by decide)⟩

/-- Claim C12. On a tree built by `NewTree`, `GenerateMProof(data)` returns the error
"data not found" (and no proof) exactly when `data` is byte-equal to none of the stored
leaves, and a proof with a `nil` error exactly when it equals some stored leaf; in both
cases the tree after the call is the tree before it. -/
theorem GenerateMProof_error_iff (data : List Bytes) (hash : HashType) (d : Bytes)
    (hne : data ≠ []) :
    ∃ t, NewTree data (some hash) = .ok t ∧ t.data = data ∧
      (GenerateMProofCall t d = (t, .error (.error "data not found")) ↔ d ∉ data) ∧
      ((∃ proof, GenerateMProofCall t d = (t, .ok proof)) ↔ d ∈ data) ∧
      (GenerateMProofCall t d).1 = t := by
  obtain ⟨t, ht, hh, hdata, hw⟩ := NewTree_wellFormed data hash hne
  refine ⟨t, ht, hdata, ?_, ?_, rfl⟩
  · by_cases hd : d ∈ data
    · obtain ⟨j, _, _, _, g⟩ := GenerateMProof_spec hw (d := d) (by rw [hdata]; exact hd)
      simp [GenerateMProofCall, g, hd]
    · have : GenerateMProof t d = .error (.error "data not found") := by
        simp only [GenerateMProof, dataIndex, hdata, dataIndexFrom_not_mem d data 0 hd, bind,
          Except.bind]
      simp [GenerateMProofCall, this, hd]
  · by_cases hd : d ∈ data
    · obtain ⟨j, _, _, _, g⟩ := GenerateMProof_spec hw (d := d) (by rw [hdata]; exact hd)
      simp [GenerateMProofCall, g, hd]
    · have : GenerateMProof t d = .error (.error "data not found") := by
        simp only [GenerateMProof, dataIndex, hdata, dataIndexFrom_not_mem d data 0 hd, bind,
          Except.bind]
      simp [GenerateMProofCall, this, hd]

theorem GenerateMProof_error_iff_witness :
    ([[1], [2], [3]] : List Bytes) ≠ [] ∧
    ∃ t, NewTree [[1], [2], [3]] (some encodeHash) = .ok t ∧ t.data = [[1], [2], [3]] ∧
      (GenerateMProofCall t [4] = (t, .error (.error "data not found"))
        ↔ ([4] : Bytes) ∉ ([[1], [2], [3]] : List Bytes)) ∧
      ((∃ proof, GenerateMProofCall t [4] = (t, .ok proof))
        ↔ ([4] : Bytes) ∈ ([[1], [2], [3]] : List Bytes)) ∧
      (GenerateMProofCall t [4]).1 = t :=
  ⟨by decide, GenerateMProof_error_iff [[1], [2], [3]] encodeHash [4] (by decide)⟩

/-- Claim C13. The `Index` of the proof returned by `GenerateMProof(d)` on a tree built
by `NewTree` is the smallest position of the stored leaf sequence holding `d`; when the
leaves are pairwise distinct it is the position of `d`. -/
theorem GenerateMProof_Index_first (data : List Bytes) (hash : HashType) (d : Bytes)
    (hd : d ∈ data) :
    ∃ t proof, NewTree data (some hash) = .ok t ∧ GenerateMProof t d = .ok proof ∧
      data[proof.Index]? = some d ∧
      (∀ j, j < proof.Index → data[j]? ≠ some d) ∧
      (data.Nodup → ∀ j, data[j]? = some d → proof.Index = j) := by
  obtain ⟨t, ht, hh, hdata, hw⟩ := NewTree_wellFormed data hash (List.ne_nil_of_mem hd)
  obtain ⟨j, g1, g2, g3, g4⟩ := GenerateMProof_spec hw (d := d) (by rw [hdata]; exact hd)
  rw [hdata] at g1 g2 g3
  have hidx : data[j]? = some d := by
    rw [getElem?_eq_some_getD g1, g2]
  have hmin : ∀ j1, j1 < j → data[j1]? ≠ some d := by
    intro j1 hj1 he
    apply g3 j1 hj1
    simp [List.getD_eq_getElem?_getD, he]
  refine ⟨t, _, ht, g4, hidx, hmin, ?_⟩
  intro hnd j2 hj2
  show j = j2
  obtain ⟨h1, e1⟩ := List.getElem?_eq_some_iff.mp hidx
  obtain ⟨h2, e2⟩ := List.getElem?_eq_some_iff.mp hj2
  exact (List.Nodup.getElem_inj_iff hnd).mp (by rw [e1, e2])

theorem GenerateMProof_Index_first_witness :
    ([3] : Bytes) ∈ ([[1], [2], [3]] : List Bytes) ∧
    ∃ t proof, NewTree [[1], [2], [3]] (some encodeHash) = .ok t ∧
      GenerateMProof t [3] = .ok proof ∧ proof.Index = 2 := by
  refine ⟨by decide, ?_⟩
  obtain ⟨t, proof, h1, h2, _, _, h5⟩ :=
    GenerateMProof_Index_first [[1], [2], [3]] encodeHash [3] (by decide)
  exact ⟨t, proof, h1, h2, h5 (by decide) 2 (by decide)⟩

/-- Claim C14. On a tree built by `NewTree` from `n ≥ 1` leaves the sibling sequence
returned by `GenerateMProof` for a stored leaf has length exactly `ceil(log2(n))`, so
`2 ^ len(Hashes)` is the tree's `branches` value (half the node slice), and below
`2 ^ 63` leaves the start position computed by `proofHash` in `uint64` arithmetic is
`Index + branches`. -/
theorem GenerateMProof_Hashes_length (data : List Bytes) (hash : HashType) (d : Bytes)
    (hd : d ∈ data) :
    ∃ t proof, NewTree data (some hash) = .ok t ∧ GenerateMProof t d = .ok proof ∧
      proof.Hashes.length = ceilLog2 data.length ∧
      proof.Hashes.length = Nat.clog 2 data.length ∧
      2 ^ proof.Hashes.length = branchesLen data.length ∧
      2 ^ proof.Hashes.length = t.nodes.length / 2 ∧
      (data.length < 2 ^ 63 →
        (proof.Index % 2 ^ 64 + (1 <<< proof.Hashes.length) % 2 ^ 64) % 2 ^ 64
          = proof.Index + t.nodes.length / 2) := by
  obtain ⟨t, ht, hh, hdata, hw⟩ := NewTree_wellFormed data hash (List.ne_nil_of_mem hd)
  obtain ⟨j, g1, g2, g3, g4⟩ := GenerateMProof_spec hw (d := d) (by rw [hdata]; exact hd)
  have hhalf := nodes_length_half hw
  rw [hdata] at g1 hhalf
  refine ⟨t, _, ht, g4, ?_, ?_, ?_, ?_, ?_⟩
  · simp only [siblingPath_length, hdata]
  · simp only [siblingPath_length, hdata, ceilLog2_eq_clog]
  · simp only [siblingPath_length, hdata]; rfl
  · simp only [siblingPath_length, hdata, hhalf]; rfl
  · intro hlen
    have hb := le_branchesLen data.length
    have hbd : branchesLen data.length = 2 ^ ceilLog2 data.length := rfl
    have hm : ceilLog2 data.length ≤ 63 := ceilLog2_le_of_le_two_pow (Nat.le_of_lt hlen)
    have hpow : 2 ^ ceilLog2 data.length ≤ 2 ^ 63 := Nat.pow_le_pow_right (by decide) hm
    simp only [siblingPath_length, hdata, hhalf, Nat.one_shiftLeft, hbd]
    omega

theorem GenerateMProof_Hashes_length_witness :
    ([3] : Bytes) ∈ ([[1], [2], [3]] : List Bytes) ∧
    ∃ t proof, NewTree [[1], [2], [3]] (some encodeHash) = .ok t ∧
      GenerateMProof t [3] = .ok proof ∧
      proof.Hashes.length = ceilLog2 ([[1], [2], [3]] : List Bytes).length ∧
      proof.Hashes.length = Nat.clog 2 ([[1], [2], [3]] : List Bytes).length ∧
      2 ^ proof.Hashes.length = branchesLen ([[1], [2], [3]] : List Bytes).length ∧
      2 ^ proof.Hashes.length = t.nodes.length / 2 ∧
      (([[1], [2], [3]] : List Bytes).length < 2 ^ 63 →
        (proof.Index % 2 ^ 64 + (1 <<< proof.Hashes.length) % 2 ^ 64) % 2 ^ 64
          = proof.Index + t.nodes.length / 2) :=
  ⟨by decide, GenerateMProof_Hashes_length [[1], [2], [3]] encodeHash [3] (by decide)⟩

/-- Claim C15. On a tree built by `NewTree`, for a stored leaf found at index `j`, entry
`k` of the sibling sequence returned by `GenerateMProof` is the node digest at position
`((j + branches) / 2 ^ k) XOR 1`; the walk `position -> position / 2` from `j + branches`
is above `1` for every `k < len(Hashes)` and reaches `1` after `len(Hashes)` steps. -/
theorem GenerateMProof_Hashes_entries (data : List Bytes) (hash : HashType) (d : Bytes)
    (hd : d ∈ data) :
    ∃ t proof, NewTree data (some hash) = .ok t ∧ GenerateMProof t d = .ok proof ∧
      (∀ k, k < proof.Hashes.length →
        1 < (proof.Index + branchesLen data.length) / 2 ^ k ∧
        ∃ s, proof.Hashes[k]? = some s ∧
          t.nodes[((proof.Index + branchesLen data.length) / 2 ^ k) ^^^ 1]? = some s) ∧
      (proof.Index + branchesLen data.length) / 2 ^ proof.Hashes.length = 1 := by
  obtain ⟨t, ht, hh, hdata, hw⟩ := NewTree_wellFormed data hash (List.ne_nil_of_mem hd)
  obtain ⟨j, g1, g2, g3, g4⟩ := GenerateMProof_spec hw (d := d) (by rw [hdata]; exact hd)
  have hlen := hw.len
  rw [hdata] at g1 g4 hlen
  have hb := le_branchesLen data.length
  have hbd : branchesLen data.length = 2 ^ ceilLog2 data.length := rfl
  have hp2 : 2 ^ (ceilLog2 data.length + 1) = 2 * 2 ^ ceilLog2 data.length := by
    rw [Nat.pow_succ]; omega
  refine ⟨t, _, ht, g4, ?_, ?_⟩
  · intro k hk
    simp only [siblingPath_length] at hk
    have hkp : 2 ^ (k + 1) ≤ 2 ^ ceilLog2 data.length := Nat.pow_le_pow_right (by decide) hk
    have hk2 : 2 ^ (k + 1) = 2 * 2 ^ k := by rw [Nat.pow_succ]; omega
    have hpos : 0 < 2 ^ k := Nat.pow_pos (by decide)
    constructor
    · show 1 < (j + branchesLen data.length) / 2 ^ k
      have : 2 * 2 ^ k ≤ j + branchesLen data.length := by omega
      have := (Nat.le_div_iff_mul_le hpos).mpr this
      omega
    · refine ⟨_, siblingPath_getElem? t.nodes _ _ k hk, ?_⟩
      dsimp only
      apply getElem?_eq_some_getD
      have h1 : (j + branchesLen data.length) / 2 ^ k ≤ j + branchesLen data.length :=
        Nat.div_le_self _ _
      have h2 : (j + branchesLen data.length) / 2 ^ k < 2 ^ (ceilLog2 data.length + 1) := by
        omega
      have := xor_one_lt h2
      omega
  · show (j + branchesLen data.length) / 2 ^ (siblingPath t.nodes _ _).length = 1
    rw [siblingPath_length]
    have hpos : 0 < 2 ^ ceilLog2 data.length := Nat.pow_pos (by decide)
    have h1 : 1 ≤ (j + branchesLen data.length) / 2 ^ ceilLog2 data.length :=
      (Nat.le_div_iff_mul_le hpos).mpr (by omega)
    have h2 : (j + branchesLen data.length) / 2 ^ ceilLog2 data.length < 2 :=
      (Nat.div_lt_iff_lt_mul hpos).mpr (by omega)
    omega

theorem GenerateMProof_Hashes_entries_witness :
    ([3] : Bytes) ∈ ([[1], [2], [3]] : List Bytes) ∧
    ∃ t proof, NewTree [[1], [2], [3]] (some encodeHash) = .ok t ∧
      GenerateMProof t [3] = .ok proof ∧
      (∀ k, k < proof.Hashes.length →
        1 < (proof.Index + branchesLen ([[1], [2], [3]] : List Bytes).length) / 2 ^ k ∧
        ∃ s, proof.Hashes[k]? = some s ∧
          t.nodes[((proof.Index + branchesLen ([[1], [2], [3]] : List Bytes).length) / 2 ^ k)
            ^^^ 1]? = some s) ∧
      (proof.Index + branchesLen ([[1], [2], [3]] : List Bytes).length)
        / 2 ^ proof.Hashes.length = 1 :=
  ⟨by decide, GenerateMProof_Hashes_entries [[1], [2], [3]] encodeHash [3] (by decide)⟩

/-- Claim C16. Single-leaf tree: for every leaf `d` and hash provider, `NewTree([d])`
has `branches = 1` (a node slice of length 2), `MerkleRoot()` is `Hash(d)`,
`GenerateMProof(d)` returns the proof with no sibling and `Index` 0, `VerifyMProof` of
`d`, that proof and the root returns `true`, and `UpdateLeaf(0, e)` returns `nil` and
makes `MerkleRoot()` equal to `Hash(e)`. -/
theorem single_leaf_tree (d e : Bytes) (hash : HashType) :
    ∃ t, NewTree [d] (some hash) = .ok t ∧
      branchesLen ([d] : List Bytes).length = 1 ∧ t.nodes.length = 2 ∧
      MerkleRoot t = .ok (hash.Hash [d]) ∧
      GenerateMProof t d = .ok { Hashes := [], Index := 0 } ∧
      VerifyMProof d { Hashes := [], Index := 0 } (hash.Hash [d]) hash = (true, none) ∧
      (UpdateLeaf t 0 e).2 = none ∧
      MerkleRoot (UpdateLeaf t 0 e).1 = .ok (hash.Hash [e]) := by
  refine ⟨{ hash := hash, data := [d], nodes := [[], hash.Hash [d]] }, rfl, rfl, rfl, rfl,
    ?_, ?_, ?_, ?_⟩
  · simp [GenerateMProof, dataIndex, dataIndexFrom, bind, Except.bind, proofLoop]
    rfl
  · simp [VerifyMProof, proofHash, proofHashLoop]
  · simp [UpdateLeaf, setAt, updateLoop]
  · simp [UpdateLeaf, setAt, updateLoop, MerkleRoot, getAt]

/-- Claim C17. Tamper detection on leaf data: on a tree built by `NewTree` from fewer
than `2 ^ 63` leaves with a hash provider that never returns the same digest for two
different argument sequences, for every stored leaf `d` with its generated proof and
every byte sequence `tampered` different from `d`, `VerifyMProof` of `tampered`, that
proof and `MerkleRoot()` returns `false` (with a `nil` error). -/
theorem tampered_leaf_fails (data : List Bytes) (hash : HashType) (d tampered : Bytes)
    (hd : d ∈ data) (hne : tampered ≠ d) (hc : CollisionFree hash)
    (hlen : data.length < 2 ^ 63) :
    ∃ t proof root, NewTree data (some hash) = .ok t ∧ GenerateMProof t d = .ok proof ∧
      MerkleRoot t = .ok root ∧ VerifyMProof tampered proof root hash = (false, none) := by
  obtain ⟨t, ht, hh, hdata, hw⟩ := NewTree_wellFormed data hash (List.ne_nil_of_mem hd)
  obtain ⟨j, g1, g2, _, g4⟩ := GenerateMProof_spec hw (d := d) (by rw [hdata]; exact hd)
  have hph := proofHash_generated hw g1 (by rw [hdata]; exact hlen)
  rw [g2, hh] at hph
  refine ⟨t, _, _, ht, g4, MerkleRoot_ok hw, ?_⟩
  unfold VerifyMProof
  rw [if_neg]
  intro he
  rw [← hph] at he
  unfold proofHash at he
  have h1 := proofHashLoop_injective hc _ _ _ _ he
  have h2 := hc _ _ h1
  simp only [List.cons.injEq, and_true] at h2
  exact hne h2.symm

theorem tampered_leaf_fails_witness :
    ([3] : Bytes) ∈ ([[1], [2], [3]] : List Bytes) ∧ ([4] : Bytes) ≠ [3] ∧
    CollisionFree encodeHash ∧ ([[1], [2], [3]] : List Bytes).length < 2 ^ 63 ∧
    ∃ t proof root, NewTree [[1], [2], [3]] (some encodeHash) = .ok t ∧
      GenerateMProof t [3] = .ok proof ∧ MerkleRoot t = .ok root ∧
      VerifyMProof [4] proof root encodeHash = (false, none) :=
  ⟨by decide, by decide, encodeHash_collisionFree, by decide,
    tampered_leaf_fails [[1], [2], [3]] encodeHash [3] [4] (by decide) (by decide)
      encodeHash_collisionFree (by decide)⟩

/-- Claim C18. The root commits to leaf order: with a hash provider that never returns
the same digest for two different argument sequences, for every leaf sequence and two
positions holding different leaves `a` and `b`, the root of the tree built from the
sequence differs from the root of the tree built from the sequence with the two leaves
swapped; and every tree built from the same sequence has the same root. -/
theorem root_commits_to_order (data : List Bytes) (hash : HashType) (i j : Nat)
    (a b : Bytes) (hi : data[i]? = some a) (hj : data[j]? = some b) (hab : a ≠ b)
    (hc : CollisionFree hash) :
    ∃ t swapped root rootSwapped, NewTree data (some hash) = .ok t ∧
      NewTree ((data.set i b).set j a) (some hash) = .ok swapped ∧
      MerkleRoot t = .ok root ∧ MerkleRoot swapped = .ok rootSwapped ∧
      root ≠ rootSwapped ∧
      (∀ t2, NewTree data (some hash) = .ok t2 → MerkleRoot t2 = .ok root) := by
  obtain ⟨hil, hig⟩ := List.getElem?_eq_some_iff.mp hi
  obtain ⟨hjl, hjg⟩ := List.getElem?_eq_some_iff.mp hj
  have hij : i ≠ j := by
    intro e
    subst e
    rw [hi] at hj
    exact hab (Option.some.inj hj)
  have hne : data ≠ [] := List.ne_nil_of_length_pos (by omega)
  obtain ⟨t, ht, hh, hdata, hw⟩ := NewTree_wellFormed data hash hne
  obtain ⟨s, hs, sh, sdata, sw⟩ := NewTree_wellFormed ((data.set i b).set j a) hash
    (by
      intro h
      have := congrArg List.length h
      simp only [List.length_set, List.length_nil] at this
      omega)
  refine ⟨t, s, _, _, ht, hs, MerkleRoot_ok hw, MerkleRoot_ok sw, ?_, ?_⟩
  · apply root_ne_of_leaf_ne hw sw (by rw [hh, sh]) (by rw [hh]; exact hc)
      (by rw [hdata, sdata, List.length_set, List.length_set]) (i := i)
      (by rw [hdata]; exact hil)
    rw [hdata, sdata, getD_set_data _ _ _ _ (by rw [List.length_set]; exact hjl),
      if_neg (fun e => hij e.symm), getD_set_data _ _ _ _ hil, if_pos rfl]
    simp only [List.getD_eq_getElem?_getD, hi, Option.getD_some]
    exact hab
  · intro t2 ht2
    rw [ht] at ht2
    cases ht2
    exact MerkleRoot_ok hw

theorem root_commits_to_order_witness :
    ([[1], [2], [3]] : List Bytes)[0]? = some [1] ∧
    ([[1], [2], [3]] : List Bytes)[2]? = some [3] ∧ ([1] : Bytes) ≠ [3] ∧
    CollisionFree encodeHash ∧
    ∃ t swapped root rootSwapped, NewTree [[1], [2], [3]] (some encodeHash) = .ok t ∧
      NewTree ((([[1], [2], [3]] : List Bytes).set 0 [3]).set 2 [1]) (some encodeHash)
        = .ok swapped ∧
      MerkleRoot t = .ok root ∧ MerkleRoot swapped = .ok rootSwapped ∧
      root ≠ rootSwapped ∧
      (∀ t2, NewTree [[1], [2], [3]] (some encodeHash) = .ok t2 → MerkleRoot t2 = .ok root) :=
  ⟨by decide, by decide, by decide, encodeHash_collisionFree,
    root_commits_to_order [[1], [2], [3]] encodeHash 0 2 [1] [3] (by decide) (by decide)
      (by decide) encodeHash_collisionFree⟩

/-- Claim C19. A successful `UpdateLeaf(index, newData)` on a tree built by `NewTree`
changes only the path: the node slice length and `branches` are as before, every node
position that is not `(index + branches) / 2 ^ k` for some `k` keeps its digest, in
particular every other leaf digest and every padding slot, and every stored leaf at an
index other than `index` is as before. -/
theorem UpdateLeaf_frame (data : List Bytes) (hash : HashType) (index : Nat)
    (newData : Bytes) (hi : index < data.length) :
    ∃ t, NewTree data (some hash) = .ok t ∧ t.data = data ∧
      (UpdateLeaf t index newData).2 = none ∧
      (UpdateLeaf t index newData).1.nodes.length = t.nodes.length ∧
      branchesLen (UpdateLeaf t index newData).1.data.length = branchesLen t.data.length ∧
      (∀ p, (∀ k, p ≠ (index + branchesLen data.length) / 2 ^ k) →
        (UpdateLeaf t index newData).1.nodes[p]? = t.nodes[p]?) ∧
      (∀ j, j ≠ index →
        (UpdateLeaf t index newData).1.nodes[branchesLen data.length + j]?
          = t.nodes[branchesLen data.length + j]?) ∧
      (∀ j, j ≠ index → (UpdateLeaf t index newData).1.data[j]? = t.data[j]?) := by
  have hne : data ≠ [] := List.ne_nil_of_length_pos (by omega)
  obtain ⟨t, ht, hh, hdata, hw⟩ := NewTree_wellFormed data hash hne
  obtain ⟨u1, u2, u3, u4, u5, u6⟩ := UpdateLeaf_spec hw index
    (by rw [hdata]; exact hi) newData
  rw [hdata] at u5
  have hb := le_branchesLen data.length
  have hbd : branchesLen data.length = 2 ^ ceilLog2 data.length := rfl
  refine ⟨t, ht, hdata, u1, u4, ?_, ?_, ?_, ?_⟩
  · rw [u3, List.length_set]
  · intro p hp
    exact getElem?_eq_of_getD u4 (u5 p (fun k _ => hp k))
  · intro j hj
    apply getElem?_eq_of_getD u4
    apply u5
    intro k hk
    rcases Nat.eq_zero_or_pos k with h0 | hpos
    · subst h0
      simp only [Nat.pow_zero, Nat.div_one]
      omega
    · have := div_two_pow_le_half (index + branchesLen data.length) hpos
      omega
  · intro j hj
    rw [u3, List.getElem?_set_ne (fun e => hj e.symm)]

theorem UpdateLeaf_frame_witness :
    2 < ([[1], [2], [3]] : List Bytes).length ∧
    ∃ t, NewTree [[1], [2], [3]] (some encodeHash) = .ok t ∧ t.data = [[1], [2], [3]] ∧
      (UpdateLeaf t 2 [9]).2 = none ∧
      (UpdateLeaf t 2 [9]).1.nodes.length = t.nodes.length ∧
      branchesLen (UpdateLeaf t 2 [9]).1.data.length = branchesLen t.data.length ∧
      (∀ p, (∀ k, p ≠ (2 + branchesLen ([[1], [2], [3]] : List Bytes).length) / 2 ^ k) →
        (UpdateLeaf t 2 [9]).1.nodes[p]? = t.nodes[p]?) ∧
      (∀ j, j ≠ 2 →
        (UpdateLeaf t 2 [9]).1.nodes[branchesLen ([[1], [2], [3]] : List Bytes).length + j]?
          = t.nodes[branchesLen ([[1], [2], [3]] : List Bytes).length + j]?) ∧
      (∀ j, j ≠ 2 → (UpdateLeaf t 2 [9]).1.data[j]? = t.data[j]?) :=
  ⟨by decide, UpdateLeaf_frame [[1], [2], [3]] encodeHash 2 [9] (by decide)⟩

/-- Claim C20. The hash provider of `.idea/blake2b.go` satisfies the contract: for every
argument list (also the empty one) `Hash` returns without a panic the `sha256.Sum256`
digest of the concatenation of its arguments in the given order, so `Hash(a, b)` equals
`Hash(a || b)`, and its result has length `HashLength()`, which is 32. -/
theorem BLAKE2b_Hash_contract (sum256 : Bytes → HashArray) (args : List Bytes) :
    BLAKE2b.Hash sum256 args = .ok (sum256 args.flatten).val ∧
    (∀ a b, BLAKE2b.Hash sum256 [a, b] = BLAKE2b.Hash sum256 [a ++ b]) ∧
    (∃ out, BLAKE2b.Hash sum256 args = .ok out ∧ out.length = BLAKE2b.HashLength) ∧
    BLAKE2b.HashLength = 32 := by
  refine ⟨BLAKE2b_Hash_spec sum256 args, ?_, ⟨_, BLAKE2b_Hash_spec sum256 args, ?_⟩, rfl⟩
  · intro a b
    rw [BLAKE2b_Hash_spec, BLAKE2b_Hash_spec]
    simp
  · exact (sum256 args.flatten).property

/-- Claim C21. Reachable-state invariant: the tree built by `NewTree` from a non-empty
leaf sequence, after any finite sequence of `UpdateLeaf` calls (each of which returns
`nil` or the error "index out of bounds"), has a node slice of length `2 * branches`
with `branches` the smallest power of two at least the leaf count, holds `Hash(leaf j)`
at position `branches + j` for every stored leaf `j`, holds `HashLength()` zero bytes in
every padding slot, and holds `Hash(node[2i], node[2i+1])` at every position
`1 ≤ i < branches`. -/
theorem reachable_invariant (data : List Bytes) (hash : HashType) (hne : data ≠ [])
    (ops : List (Nat × Bytes)) :
    ∃ t, NewTree data (some hash) = .ok t ∧
      (∀ e, e ∈ (runUpdates t ops).2 → e = none ∨ e = some (.error "index out of bounds")) ∧
      (runUpdates t ops).1.data.length = data.length ∧
      (runUpdates t ops).1.nodes.length = 2 * branchesLen (runUpdates t ops).1.data.length ∧
      (∃ k, branchesLen (runUpdates t ops).1.data.length = 2 ^ k) ∧
      (runUpdates t ops).1.data.length ≤ branchesLen (runUpdates t ops).1.data.length ∧
      (∀ k, (runUpdates t ops).1.data.length ≤ 2 ^ k →
        branchesLen (runUpdates t ops).1.data.length ≤ 2 ^ k) ∧
      (∀ j d, (runUpdates t ops).1.data[j]? = some d →
        (runUpdates t ops).1.nodes[branchesLen (runUpdates t ops).1.data.length + j]?
          = some (hash.Hash [d])) ∧
      (∀ p, branchesLen (runUpdates t ops).1.data.length
          + (runUpdates t ops).1.data.length ≤ p →
        p < 2 * branchesLen (runUpdates t ops).1.data.length →
        (runUpdates t ops).1.nodes[p]? = some (List.replicate hash.HashLength 0)) ∧
      (∀ i, 1 ≤ i → i < branchesLen (runUpdates t ops).1.data.length →
        ∃ left right, (runUpdates t ops).1.nodes[2 * i]? = some left ∧
          (runUpdates t ops).1.nodes[2 * i + 1]? = some right ∧
          (runUpdates t ops).1.nodes[i]? = some (hash.Hash [left, right])) := by
  obtain ⟨t, ht, hh, hdata, hw0⟩ := NewTree_wellFormed data hash hne
  obtain ⟨hw, rh, rl, re⟩ := runUpdates_wellFormed ops t hw0
  rw [hh] at rh
  have hb := le_branchesLen (runUpdates t ops).1.data.length
  have hlen := hw.len
  refine ⟨t, ht, re, by rw [rl, hdata], hlen, ⟨_, rfl⟩, hb, ?_, ?_, ?_, ?_⟩
  · intro k hk
    exact Nat.pow_le_pow_right (by decide) (ceilLog2_le_of_le_two_pow hk)
  · intro j d hj
    obtain ⟨hlt, hget⟩ := List.getElem?_eq_some_iff.mp hj
    have := hw.leaves j hlt
    rw [rh] at this
    rw [getElem?_eq_some_getD (by omega), this]
    simp [List.getD_eq_getElem?_getD, List.getElem?_eq_getElem hlt, hget]
  · intro p hp1 hp2
    have := hw.padding p hp1 hp2
    rw [rh] at this
    rw [getElem?_eq_some_getD (by omega), this]
  · intro i hi1 hi2
    refine ⟨_, _, getElem?_eq_some_getD (by omega), getElem?_eq_some_getD (by omega), ?_⟩
    rw [getElem?_eq_some_getD (by omega), hw.inner i hi1 hi2, rh]

theorem reachable_invariant_witness :
    ([[1], [2], [3]] : List Bytes) ≠ [] ∧
    ∃ t, NewTree [[1], [2], [3]] (some encodeHash) = .ok t ∧
      (∀ e, e ∈ (runUpdates t [(2, [9]), (5, [4]), (0, [9])]).2 →
        e = none ∨ e = some (.error "index out of bounds")) ∧
      (runUpdates t [(2, [9]), (5, [4]), (0, [9])]).1.data.length
        = ([[1], [2], [3]] : List Bytes).length ∧
      (runUpdates t [(2, [9]), (5, [4]), (0, [9])]).1.nodes.length
        = 2 * branchesLen (runUpdates t [(2, [9]), (5, [4]), (0, [9])]).1.data.length ∧
      (∀ i, 1 ≤ i → i < branchesLen (runUpdates t [(2, [9]), (5, [4]), (0, [9])]).1.data.length →
        ∃ left right, (runUpdates t [(2, [9]), (5, [4]), (0, [9])]).1.nodes[2 * i]? = some left ∧
          (runUpdates t [(2, [9]), (5, [4]), (0, [9])]).1.nodes[2 * i + 1]? = some right ∧
          (runUpdates t [(2, [9]), (5, [4]), (0, [9])]).1.nodes[i]?
            = some (encodeHash.Hash [left, right])) := by
  refine ⟨by decide, ?_⟩
  obtain ⟨t, h1, h2, h3, h4, _, _, _, _, _, h10⟩ :=
    reachable_invariant [[1], [2], [3]] encodeHash (by decide) [(2, [9]), (5, [4]), (0, [9])]
  exact ⟨t, h1, h2, h3, h4, h10⟩

/-- Claim C22. Index safety: on the tree built by `NewTree` and after any sequence of
`UpdateLeaf` calls, `GenerateMProof` on stored data and `UpdateLeaf` on an index below
the leaf count return without a panic. The loop of `GenerateMProof` runs exactly
`ceil(log2(leafCount))` times, iteration `k` reading node position
`((Index + branches) / 2 ^ k) XOR 1` and writing slot `k` of the sibling slice, which has
exactly that many slots, so every slot holds a node digest; and every node position
accessed by either method is at least `1` and below `2 * branches`, the length of the
node slice. -/
theorem index_safety (data : List Bytes) (hash : HashType) (hne : data ≠ [])
    (ops : List (Nat × Bytes)) :
    ∃ t, NewTree data (some hash) = .ok t ∧
      (runUpdates t ops).1.nodes.length = 2 * branchesLen data.length ∧
      (∀ d, d ∈ (runUpdates t ops).1.data →
        ∃ proof, GenerateMProof (runUpdates t ops).1 d = .ok proof ∧
          GenerateMProofTraced (runUpdates t ops).1 d = .ok (proof,
            (List.range (ceilLog2 data.length)).map
              (fun k => (((proof.Index + branchesLen data.length) / 2 ^ k) ^^^ 1, k))) ∧
          proof.Hashes.length = ceilLog2 data.length ∧
          ∀ k, k < ceilLog2 data.length →
            1 ≤ ((proof.Index + branchesLen data.length) / 2 ^ k) ^^^ 1 ∧
            ((proof.Index + branchesLen data.length) / 2 ^ k) ^^^ 1
              < 2 * branchesLen data.length ∧
            ∃ s, (runUpdates t ops).1.nodes[((proof.Index + branchesLen data.length) / 2 ^ k)
                ^^^ 1]? = some s ∧ proof.Hashes[k]? = some s) ∧
      (∀ index newData, index < data.length →
        (UpdateLeafTraced (runUpdates t ops).1 index newData).1
          = UpdateLeaf (runUpdates t ops).1 index newData ∧
        (UpdateLeaf (runUpdates t ops).1 index newData).2 = none ∧
        ∀ q, q ∈ (UpdateLeafTraced (runUpdates t ops).1 index newData).2 →
          1 ≤ q ∧ q < 2 * branchesLen data.length) := by
  obtain ⟨t, ht, hh, hdata, hw0⟩ := NewTree_wellFormed data hash hne
  obtain ⟨hw, rh, rl, re⟩ := runUpdates_wellFormed ops t hw0
  rw [hdata] at rl
  have hlen := hw.len
  rw [rl] at hlen
  have hb := le_branchesLen data.length
  have hbd : branchesLen data.length = 2 ^ ceilLog2 data.length := rfl
  have hp2 : 2 ^ (ceilLog2 data.length + 1) = 2 * 2 ^ ceilLog2 data.length := by
    rw [Nat.pow_succ]; omega
  refine ⟨t, ht, hlen, ?_, ?_⟩
  · intro d hd
    obtain ⟨proof, g1, g2, g3, g4⟩ := GenerateMProofTraced_spec hw hd
    rw [rl] at g2 g3 g4
    refine ⟨proof, g1, g4, by rw [g3, siblingPath_length], ?_⟩
    intro k hk
    have hkp : 2 ^ (k + 1) ≤ 2 ^ ceilLog2 data.length := Nat.pow_le_pow_right (by decide) hk
    have hk2 : 2 ^ (k + 1) = 2 * 2 ^ k := by rw [Nat.pow_succ]; omega
    have hpos : 0 < 2 ^ k := Nat.pow_pos (by decide)
    have hgt : 1 < (proof.Index + branchesLen data.length) / 2 ^ k := by
      have : 2 * 2 ^ k ≤ proof.Index + branchesLen data.length := by omega
      have := (Nat.le_div_iff_mul_le hpos).mpr this
      omega
    have hle : (proof.Index + branchesLen data.length) / 2 ^ k
        ≤ proof.Index + branchesLen data.length := Nat.div_le_self _ _
    have hlt : (proof.Index + branchesLen data.length) / 2 ^ k
        < 2 ^ (ceilLog2 data.length + 1) := by omega
    have hx := xor_one_lt hlt
    refine ⟨one_le_xor_one hgt, by omega, _, getElem?_eq_some_getD (by omega), ?_⟩
    rw [g3]
    exact siblingPath_getElem? _ _ _ k hk
  · intro index newData hi
    have hi2 : index < (runUpdates t ops).1.data.length := by rw [rl]; exact hi
    obtain ⟨u1, _⟩ := UpdateLeaf_spec hw index hi2 newData
    refine ⟨UpdateLeafTraced_erase _ _ _, u1, ?_⟩
    intro q hq
    have := UpdateLeafTraced_bounds hw index hi2 newData q hq
    rw [rl] at this
    exact this

theorem index_safety_witness :
    ([[1], [2], [3]] : List Bytes) ≠ [] ∧
    ∃ t, NewTree [[1], [2], [3]] (some encodeHash) = .ok t ∧
      (runUpdates t [(2, [9]), (5, [4])]).1.nodes.length
        = 2 * branchesLen ([[1], [2], [3]] : List Bytes).length ∧
      (∀ d, d ∈ (runUpdates t [(2, [9]), (5, [4])]).1.data →
        ∃ proof, GenerateMProof (runUpdates t [(2, [9]), (5, [4])]).1 d = .ok proof ∧
          proof.Hashes.length = ceilLog2 ([[1], [2], [3]] : List Bytes).length) ∧
      (∀ index newData, index < ([[1], [2], [3]] : List Bytes).length →
        (UpdateLeaf (runUpdates t [(2, [9]), (5, [4])]).1 index newData).2 = none ∧
        ∀ q, q ∈ (UpdateLeafTraced (runUpdates t [(2, [9]), (5, [4])]).1 index newData).2 →
          1 ≤ q ∧ q < 2 * branchesLen ([[1], [2], [3]] : List Bytes).length) := by
  refine ⟨by decide, ?_⟩
  obtain ⟨t, h1, h2, h3, h4⟩ :=
    index_safety [[1], [2], [3]] encodeHash (by decide) [(2, [9]), (5, [4])]
  refine ⟨t, h1, h2, ?_, ?_⟩
  · intro d hd
    obtain ⟨proof, g1, _, g3, _⟩ := h3 d hd
    exact ⟨proof, g1, g3⟩
  · intro index newData hi
    obtain ⟨_, u2, u3⟩ := h4 index newData hi
    exact ⟨u2, u3⟩

/-- Claim C23. No domain separation between leaves and internal nodes: on a tree built by
`NewTree` from at least two leaves with a hash provider for which `Hash(a, b)` equals
`Hash(a || b)`, `VerifyMProof` of the byte string `node[2] || node[3]`, the proof with no
sibling and `Index` 0, and `MerkleRoot()` returns `true`. -/
theorem no_domain_separation (data : List Bytes) (hash : HashType) (h2 : 2 ≤ data.length)
    (hcat : ∀ a b, hash.Hash [a, b] = hash.Hash [a ++ b]) :
    ∃ t left right root, NewTree data (some hash) = .ok t ∧
      t.nodes[2]? = some left ∧ t.nodes[3]? = some right ∧ MerkleRoot t = .ok root ∧
      VerifyMProof (left ++ right) { Hashes := [], Index := 0 } root hash = (true, none) := by
  have hne : data ≠ [] := List.ne_nil_of_length_pos (by omega)
  obtain ⟨t, ht, hh, hdata, hw⟩ := NewTree_wellFormed data hash hne
  have hb := le_branchesLen data.length
  have hlen := hw.len
  rw [hdata] at hlen
  have hroot := hw.inner 1 (Nat.le_refl 1) (by rw [hdata]; omega)
  rw [hh] at hroot
  refine ⟨t, _, _, _, ht, getElem?_eq_some_getD (by omega), getElem?_eq_some_getD (by omega),
    MerkleRoot_ok hw, ?_⟩
  simp only [VerifyMProof, proofHash, proofHashLoop]
  rw [hroot, hcat]
  simp

theorem no_domain_separation_witness :
    2 ≤ ([[1], [2]] : List Bytes).length ∧
    (∀ a b, concatHash.Hash [a, b] = concatHash.Hash [a ++ b]) ∧
    ∃ t left right root, NewTree [[1], [2]] (some concatHash) = .ok t ∧
      t.nodes[2]? = some left ∧ t.nodes[3]? = some right ∧ MerkleRoot t = .ok root ∧
      VerifyMProof (left ++ right) { Hashes := [], Index := 0 } root concatHash
        = (true, none) ∧
      left ++ right ∉ ([[1], [2]] : List Bytes) := by
  refine ⟨by decide, concatHash_pair, ?_⟩
  obtain ⟨t, left, right, root, h1, hl, hr, h4, h5⟩ :=
    no_domain_separation [[1], [2]] concatHash (by decide) concatHash_pair
  obtain ⟨t1, ht1, hh, hdata, hw⟩ := NewTree_wellFormed [[1], [2]] concatHash (by decide)
  rw [h1] at ht1
  cases ht1
  have e0 := hw.leaves 0 (by rw [hdata]; decide)
  have e1 := hw.leaves 1 (by rw [hdata]; decide)
  rw [hdata, hh] at e0 e1
  have hlen := hw.len
  rw [hdata] at hlen
  have hb : branchesLen ([[1], [2]] : List Bytes).length = 2 := by decide
  rw [hb] at e0 e1 hlen
  have hl1 := hl
  have hr1 := hr
  rw [getElem?_eq_some_getD (by omega), e0] at hl1
  rw [getElem?_eq_some_getD (by omega), e1] at hr1
  have hL : left = [1] := (Option.some.inj hl1).symm
  have hR : right = [2] := (Option.some.inj hr1).symm
  subst hL
  subst hR
  exact ⟨t, _, _, root, h1, hl, hr, h4, h5, by decide⟩

/-- Claim C24. `VerifyMProof` does not bind the high bits of the index: for every data,
root, hash provider and sibling sequence of length `m < 64`, two proofs with that
sequence whose `Index` values are congruent modulo `2 ^ m` give the same `VerifyMProof`
result. -/
theorem VerifyMProof_index_mod (data root : Bytes) (hash : HashType) (siblings : List Bytes)
    (index1 index2 : Nat) (hm : siblings.length < 64)
    (hcong : index1 % 2 ^ siblings.length = index2 % 2 ^ siblings.length) :
    VerifyMProof data { Hashes := siblings, Index := index1 } root hash =
      VerifyMProof data { Hashes := siblings, Index := index2 } root hash := by
  have h : proofHash data { Hashes := siblings, Index := index1 } hash =
      proofHash data { Hashes := siblings, Index := index2 } hash := by
    unfold proofHash
    apply proofHashLoop_congr
    rw [uint64_start_mod_low _ _ hm, uint64_start_mod_low _ _ hm, hcong]
  unfold VerifyMProof
  rw [h]

theorem VerifyMProof_index_mod_witness :
    ([[7], [8]] : List Bytes).length < 64 ∧
    2 % 2 ^ ([[7], [8]] : List Bytes).length = 6 % 2 ^ ([[7], [8]] : List Bytes).length ∧
    VerifyMProof [3] { Hashes := [[7], [8]], Index := 2 } [5] encodeHash =
      VerifyMProof [3] { Hashes := [[7], [8]], Index := 6 } [5] encodeHash :=
  ⟨by decide, by decide,
    VerifyMProof_index_mod [3] [5] encodeHash [[7], [8]] 2 6 (by decide) (by decide)⟩

end Merkle
